import Mathlib

/-!
Verification development for the runez process-execution and interpreter-discovery
engines (src/runez/pyenv.py and src/runez/program.py).

Text is modelled as `List Char`; Python `re` matching for the two anchored regexes
`R_VERSION` and `R_SPEC` is translated into deterministic character-level parsers
that follow the engine's leftmost/greedy semantics (both regexes are anchored and
their alternations/greedy loops never require backtracking that would change the
captured groups, except for the optional separators, which are modelled with an
explicit second attempt).  `\d`/`[0-9]` are modelled as ASCII digits and `\s` as
ASCII whitespace, which is exact on the inputs the theorems quantify over.
-/

namespace Runez

/-- ASCII whitespace, the characters Python's `str.strip()` and `\s` remove
from the texts handled here. -/
def pySpace (c : Char) : Bool :=
  c = ' ' ∨ c = '\t' ∨ c = '\n' ∨ c = '\x0b' ∨ c = '\x0c' ∨ c = '\r'

/-- Python `int()` on a digit string. -/
def digitsVal (cs : List Char) : Nat :=
  cs.foldl (fun a c => 10 * a + (c.toNat - 48)) 0

/-- Python string `<` restricted to what the code compares: lexicographic by
code point, a strict prefix is smaller. -/
def charListLt : List Char → List Char → Bool
  | _, [] => false
  | [], _ :: _ => true
  | a :: as, b :: bs => a.val < b.val || (a = b && charListLt as bs)

/-- Python tuple `<` on length-equal tuples of ints (lexicographic). -/
def natListLt : List Nat → List Nat → Bool
  | _, [] => false
  | [], _ :: _ => true
  | a :: as, b :: bs => a < b || (a = b && natListLt as bs)

/-- Python `str.startswith` (character-wise prefix test). -/
def isPrefixCL : List Char → List Char → Bool
  | [], _ => true
  | _ :: _, [] => false
  | p :: ps, c :: cs => p = c && isPrefixCL ps cs

/-- Python `in` on strings (substring containment). -/
def containsSub : List Char → List Char → Bool
  | [], pat => pat.isEmpty
  | h :: t, pat => isPrefixCL pat (h :: t) || containsSub t pat

/-- Python `str.strip()` (both ends). -/
def pyStrip (cs : List Char) : List Char :=
  ((cs.dropWhile pySpace).reverse.dropWhile pySpace).reverse

/-! ## `Version` (pyenv.py)

`R_VERSION = ^((\d+)((\.(\d+))*)((a|b|c|rc)(\d+))?(\.(dev|post|final)\.?(\d+))?).*$`
-/

/-- One digit run: nonempty, every character an ASCII digit. -/
def digitRun (r : List Char) : Prop :=
  r ≠ [] ∧ ∀ c ∈ r, c.isDigit = true

instance decidableDigitRun (r : List Char) : Decidable (digitRun r) :=
  inferInstanceAs (Decidable (r ≠ [] ∧ ∀ c ∈ r, c.isDigit = true))

/-- Digit runs joined by single dots (the dotted numeric strings of the spec). -/
def dotted : List (List Char) → List Char
  | [] => []
  | [r] => r
  | r :: rs => r ++ '.' :: dotted rs

/-- A suffix the greedy dot-run loop stops in front of: empty, or not starting
with a digit, or a dot not followed by a digit. -/
def tailStop : List Char → Bool
  | [] => true
  | c :: rest =>
    if c = '.' then
      match rest with
      | [] => true
      | c2 :: _ => !c2.isDigit
    else !c.isDigit

/-- `'.'`-prefixed runs laid before a suffix: the shape the dot-run loop eats. -/
def encTail (rs : List (List Char)) (s : List Char) : List Char :=
  rs.foldr (fun r acc => '.' :: r ++ acc) s

/-- The greedy loop `((\.(\d+))*)` of `R_VERSION`: consume `.` followed by a
nonempty digit run, as often as possible; return the runs and the rest.
Structural recursion on a fuel that bounds the number of consumed dots. -/
def dotRunsAux : Nat → List Char → List (List Char) × List Char
  | 0, cs => ([], cs)
  | fuel + 1, cs =>
    match cs with
    | c :: rest =>
      if c = '.' then
        let d := rest.takeWhile Char.isDigit
        if d.isEmpty then ([], c :: rest)
        else
          let (more, r) := dotRunsAux fuel (rest.dropWhile Char.isDigit)
          (d :: more, r)
      else ([], c :: rest)
    | [] => ([], [])

/-- `dotRunsAux` with always-sufficient fuel (each step consumes ≥ 2 chars). -/
def dotRuns (cs : List Char) : List (List Char) × List Char :=
  dotRunsAux cs.length cs

/-- A marker word followed by the required nonempty digit run (`(\d+)`). -/
def markDigits (tag : List Char) (rest : List Char) :
    Option ((List Char × List Char) × List Char) :=
  let d := rest.takeWhile Char.isDigit
  if d.isEmpty then none else some ((tag, d), rest.dropWhile Char.isDigit)

/-- The optional group `((a|b|c|rc)(\d+))?` of `R_VERSION` (ordered alternation,
a nonempty digit run is required for the group to match). -/
def preMark (cs : List Char) : Option ((List Char × List Char) × List Char) :=
  match cs with
  | [] => none
  | c :: rest =>
    if c = 'a' then markDigits ['a'] rest
    else if c = 'b' then markDigits ['b'] rest
    else if c = 'c' then markDigits ['c'] rest
    else if c = 'r' then
      match rest with
      | c2 :: rest2 => if c2 = 'c' then markDigits ['r', 'c'] rest2 else none
      | [] => none
    else none

/-- A marker word then `\.?(\d+)`: the optional dot is greedy, with the
non-consuming fallback the engine's backtracking would take. -/
def relNum (tag : List Char) (rest : List Char) :
    Option ((List Char × List Char) × List Char) :=
  match rest with
  | c :: rest2 =>
    if c = '.' then
      match markDigits tag rest2 with
      | some g => some g
      | none => markDigits tag rest
    else markDigits tag rest
  | [] => markDigits tag []

/-- The optional group `(\.(dev|post|final)\.?(\d+))?` of `R_VERSION`. -/
def relMark (cs : List Char) : Option ((List Char × List Char) × List Char) :=
  match cs with
  | [] => none
  | c :: rest =>
    if c = '.' then
      if isPrefixCL ['d', 'e', 'v'] rest then relNum ['d', 'e', 'v'] (rest.drop 3)
      else if isPrefixCL ['p', 'o', 's', 't'] rest then relNum ['p', 'o', 's', 't'] (rest.drop 4)
      else if isPrefixCL ['f', 'i', 'n', 'a', 'l'] rest then
        relNum ['f', 'i', 'n', 'a', 'l'] (rest.drop 5)
      else none
    else none

/-- The trailing `.*$` of `R_VERSION`: `.` does not cross a newline and `$` also
matches just before one final trailing newline. -/
def tailOk : List Char → Bool
  | [] => true
  | c :: rest => if c = '\n' then rest.isEmpty else tailOk rest

/-- Result of a successful `R_VERSION.match`: group 1 (the consumed prefix),
group 2 (major), the digit runs of group 3, groups 7/8 and groups 10/11. -/
structure RMatch where
  text : List Char
  major : List Char
  mains : List (List Char)
  pre : Option (List Char × List Char)
  rel : Option (List Char × List Char)
  deriving Repr, DecidableEq

/-- `R_VERSION.match(text)` (anchored, leftmost-greedy). -/
def rMatch (cs : List Char) : Option RMatch :=
  let major := cs.takeWhile Char.isDigit
  if major.isEmpty then none
  else
    let r1 := cs.dropWhile Char.isDigit
    let (mains, r2) := dotRuns r1
    let (pre, r3) := match preMark r2 with
      | some (p, r) => (some p, r)
      | none => (none, r2)
    let (rel, r4) := match relMark r3 with
      | some (p, r) => (some p, r)
      | none => (none, r3)
    if tailOk r4 then
      some { text := cs.take (cs.length - r4.length), major := major, mains := mains,
             pre := pre, rel := rel }
    else none

/-- `Version` (pyenv.py): normalized text, the length-5 numeric tuple when the
text parses (None otherwise), and the optional prerelease pair. -/
structure Version where
  text : List Char
  components : Option (List Nat)
  prerelease : Option (List Char × Nat)
  deriving Repr, DecidableEq

/-- `Version.__init__` (pyenv.py lines 492-525). -/
def mkVersionCore (text : List Char) (maxParts : Nat := 4) : Version :=
  match rMatch text with
  | none => { text := text, components := none, prerelease := none }
  | some m =>
    let comps := m.major :: m.mains
    if comps.length > maxParts then
      { text := m.text, components := none, prerelease := none }
    else
      let relName : Option (List Char) := m.rel.map (·.1)
      let lastComp : Nat :=
        if relName = some ['f', 'i', 'n', 'a', 'l'] ∨ relName = some ['p', 'o', 's', 't'] then
          (m.rel.map (fun r => digitsVal r.2)).getD 0
        else 0
      let padded := comps.map digitsVal ++ List.replicate (maxParts - comps.length) 0
      let preTag : Option (List Char) :=
        if relName = some ['d', 'e', 'v'] then some ['d', 'e', 'v']
        else m.pre.map (fun p => '_' :: p.1)
      let preNum : Nat := (m.pre.map (fun p => digitsVal p.2)).getD 0
      { text := m.text, components := some (padded ++ [lastComp]),
        prerelease := preTag.map (fun p => (p, preNum)) }

/-- `Version(text)` on a string. -/
def mkVersion (s : String) : Version := mkVersionCore s.data 4

/-- `Version.__eq__`: same tuple and same prerelease pair. -/
def veq (a b : Version) : Bool :=
  decide (a.components = b.components ∧ a.prerelease = b.prerelease)

/-- Python `<` on the prerelease pairs (string first, then number). -/
def preLt (p q : List Char × Nat) : Bool :=
  charListLt p.1 q.1 || (p.1 = q.1 && p.2 < q.2)

/-- Truthiness of `Version.__lt__` (pyenv.py lines 542-553). -/
def vlt (a b : Version) : Bool :=
  match a.components, b.components with
  | some ca, some cb =>
    if ca = cb then
      match a.prerelease, b.prerelease with
      | some pa, some pb => preLt pa pb
      | some _, none => false
      | none, pb => pb.isSome
    else natListLt ca cb
  | _, _ => b.components.isSome

/-! ## `PythonSpec` (pyenv.py)

`R_SPEC = ^\s*((|py?|c?python|(ana|mini)?conda[23]?|pypy)\s*[:-]?)\s*([0-9]*)\.?([0-9]*)\.?([0-9]*)\s*$`
(IGNORECASE).  The parser below follows the engine's ordered alternation and
greedy optionals, with the explicit fallback attempts backtracking would take.
-/

/-- Python `str.startswith`, ASCII case-insensitive; the pattern is given in
lowercase. -/
def isPrefixCI : List Char → List Char → Bool
  | [], _ => true
  | _ :: _, [] => false
  | p :: ps, c :: cs => p = c.toLower && isPrefixCI ps cs

/-- Tail `([0-9]*)\.?([0-9]*)\s*$` after the first optional dot: digit group,
greedy optional dot, digit group, trailing whitespace, end. -/
def rsTail2 (cs : List Char) : Option (List Char × List Char) :=
  let d2 := cs.takeWhile Char.isDigit
  let r := cs.dropWhile Char.isDigit
  let withDot : Option (List Char × List Char) :=
    match r with
    | c :: rest =>
      if c = '.' then
        let d3 := rest.takeWhile Char.isDigit
        if ((rest.dropWhile Char.isDigit).dropWhile pySpace).isEmpty then some (d2, d3)
        else none
      else none
    | [] => none
  match withDot with
  | some g => some g
  | none => if (r.dropWhile pySpace).isEmpty then some (d2, []) else none

/-- The version tail `([0-9]*)\.?([0-9]*)\.?([0-9]*)\s*$` of `R_SPEC`. -/
def rsDigits (cs : List Char) : Option (List Char × List Char × List Char) :=
  let d1 := cs.takeWhile Char.isDigit
  let r := cs.dropWhile Char.isDigit
  let withDot : Option (List Char × List Char × List Char) :=
    match r with
    | c :: rest =>
      if c = '.' then (rsTail2 rest).map (fun g => (d1, g.1, g.2)) else none
    | [] => none
  match withDot with
  | some g => some g
  | none => (rsTail2 r).map (fun g => (d1, g.1, g.2))

/-- `\s*` then the version tail. -/
def rsDigitsWs (cs : List Char) : Option (List Char × List Char × List Char) :=
  rsDigits (cs.dropWhile pySpace)

/-- After the family word: `\s*[:-]?\s*` then the version tail (the optional
separator is greedy, with the non-consuming fallback). -/
def rsAfterFam (cs : List Char) : Option (List Char × List Char × List Char) :=
  let cs1 := cs.dropWhile pySpace
  match cs1 with
  | c :: rest =>
    if c = ':' ∨ c = '-' then
      match rsDigitsWs rest with
      | some g => some g
      | none => rsDigitsWs cs1
    else rsDigitsWs cs1
  | [] => rsDigitsWs []

/-- The family alternatives of `R_SPEC` in the engine's preference order
(ordered alternation, greedy `?` optionals). -/
def famAlts : List (List Char) :=
  [[], ['p', 'y'], ['p'],
   ['c', 'p', 'y', 't', 'h', 'o', 'n'], ['p', 'y', 't', 'h', 'o', 'n'],
   ['a', 'n', 'a', 'c', 'o', 'n', 'd', 'a', '2'], ['a', 'n', 'a', 'c', 'o', 'n', 'd', 'a', '3'],
   ['a', 'n', 'a', 'c', 'o', 'n', 'd', 'a'],
   ['m', 'i', 'n', 'i', 'c', 'o', 'n', 'd', 'a', '2'], ['m', 'i', 'n', 'i', 'c', 'o', 'n', 'd', 'a', '3'],
   ['m', 'i', 'n', 'i', 'c', 'o', 'n', 'd', 'a'],
   ['c', 'o', 'n', 'd', 'a', '2'], ['c', 'o', 'n', 'd', 'a', '3'], ['c', 'o', 'n', 'd', 'a'],
   ['p', 'y', 'p', 'y']]

/-- Try the family alternatives in order against the text. -/
def tryFams : List (List Char) → List Char → Option (List Char × List Char × List Char)
  | [], _ => none
  | f :: fs, cs =>
    match (if isPrefixCI f cs then rsAfterFam (cs.drop f.length) else none) with
    | some g => some g
    | none => tryFams fs cs

/-- `R_SPEC.match(text)`, returning groups 4, 5 and 6 (the digit groups). -/
def rSpec (cs : List Char) : Option (List Char × List Char × List Char) :=
  tryFams famAlts (cs.dropWhile pySpace)

/-- `CPYTHON_NAMES` (pyenv.py line 11). -/
def cpythonNames : List (List Char) :=
  [['p', 'y', 't', 'h', 'o', 'n'], [], ['p'], ['p', 'y'],
   ['c', 'p', 'y', 't', 'h', 'o', 'n']]

/-- `_is_path` (pyenv.py lines 17-19). -/
def isPath (text : List Char) : Bool :=
  isPrefixCL ['~'] text || isPrefixCL ['.'] text || decide ('/' ∈ text)

/-- Modelled from the spec: `os.path.expanduser` as the path resolver uses it
(`~` and `~/…` expand to the home directory). -/
def expandUser (home : List Char) (p : List Char) : List Char :=
  if p = ['~'] then home
  else if isPrefixCL ['~', '/'] p then home ++ p.drop 1
  else p

/-- Modelled from the spec: `resolved_path` lives in `runez.system`, which is
not among the sources; the spec lists it as the collaborator "path resolver
(relative/`~` → absolute)".  `~`/`~/…` expand to the home directory and a
relative path is anchored at the working directory; an absolute path is kept. -/
def resolvedPath (home cwd : List Char) (p : List Char) : List Char :=
  if p.isEmpty then p
  else if isPrefixCL ['/'] (expandUser home p) then expandUser home p
  else cwd ++ '/' :: expandUser home p

/-- `Families.guess_family` (pyenv.py lines 101-108): first family name that is
a substring of the text, in slot order, else the default `cpython`. -/
def guessFamily (text : List Char) : List Char :=
  if containsSub text ['c', 'p', 'y', 't', 'h', 'o', 'n'] then ['c', 'p', 'y', 't', 'h', 'o', 'n']
  else if containsSub text ['p', 'y', 'p', 'y'] then ['p', 'y', 'p', 'y']
  else if containsSub text ['c', 'o', 'n', 'd', 'a'] then ['c', 'o', 'n', 'd', 'a']
  else ['c', 'p', 'y', 't', 'h', 'o', 'n']

/-- `PythonSpec`: family name, stripped text, optional version, canonical key. -/
structure PythonSpec where
  family : List Char
  text : List Char
  version : Option Version
  canonical : List Char
  deriving Repr, DecidableEq

/-- `PythonSpec.__init__` (pyenv.py lines 117-146). -/
def mkSpecCore (home cwd : List Char) (textRaw : List Char) (family : List Char) :
    PythonSpec :=
  let text := pyStrip textRaw
  if text ∈ cpythonNames then
    { family := family, text := text, version := none, canonical := family }
  else if isPath text then
    { family := family, text := text, version := none,
      canonical := resolvedPath home cwd text }
  else
    let sentinel : PythonSpec :=
      { family := family, text := text, version := none, canonical := '?' :: text }
    match rSpec text with
    | none => sentinel
    | some (d1, d2, d3) =>
      let comps0 := [d1, d2, d3].filter (fun s => !s.isEmpty)
      let comps := match comps0 with
        | [c] => c.map (fun ch => [ch])
        | _ => comps0
      if comps.isEmpty || decide (comps.length > 3) then sentinel
      else
        let v := mkVersionCore (List.intercalate ['.'] comps) 4
        { family := family, text := text, version := some v,
          canonical := family ++ ':' :: v.text }

/-- `PythonDepot.spec_from_text(text)` with no family hint (pyenv.py lines
344-356): guess the family from the text, then build the spec. -/
def specFromTextCore (home cwd text : List Char) : PythonSpec :=
  mkSpecCore home cwd text (guessFamily text)

/-- `spec_from_text` on strings. -/
def specFromText (home cwd text : String) : PythonSpec :=
  specFromTextCore home.data cwd.data text.data

/-! ## `PythonInstallation` and `PythonDepot` (pyenv.py)

The registration claims only read an installation's equivalence set, its spec's
canonical string and its problem field, so an installation is modelled by those
(in the Python class the spec can also be absent, but only together with a set
problem, in which case it is never read; `__init__`'s seeding of the
equivalence set goes through `os.path.realpath` and is treated as given data).
-/

structure PythonInstallation where
  equivalent : List (List Char)
  spec : PythonSpec
  problem : Option (List Char)
  deriving Repr, DecidableEq

/-- Truthiness of `PythonInstallation.satisfies` (pyenv.py lines 673-682): a
problem record returns `None` (falsy); otherwise the spec's canonical is
literally in the equivalence set, or the record's canonical starts with it. -/
def satisfies (p : PythonInstallation) (s : PythonSpec) : Bool :=
  if p.problem = none then
    decide (s.canonical ∈ p.equivalent) || isPrefixCL s.canonical p.spec.canonical
  else false

/-- The mutable catalog state of `PythonDepot`: the resolvable list, the
invalid list, and the alias cache (an insert-ordered map). -/
structure Depot where
  available : List PythonInstallation
  invalid : List PythonInstallation
  cache : List (List Char × PythonInstallation)
  deriving Repr, DecidableEq

/-- Python dict lookup on the modelled cache. -/
def lookupCache : List (List Char × PythonInstallation) → List Char →
    Option PythonInstallation
  | [], _ => none
  | (k, v) :: rest, key => if k = key then some v else lookupCache rest key

/-- The loop of `PythonDepot._cached_equivalents` (pyenv.py lines 335-342):
cache every equivalence string not yet cached, reporting whether any was new. -/
def cacheStep (p : PythonInstallation) : Depot → Bool → List (List Char) → Depot × Bool
  | d, flag, [] => (d, flag)
  | d, flag, k :: ks =>
    if (lookupCache d.cache k).isSome then cacheStep p d flag ks
    else cacheStep p { d with cache := (k, p) :: d.cache } true ks

/-- `PythonDepot._cached_equivalents` (pyenv.py lines 335-342). -/
def cachedEquivalents (d : Depot) (p : PythonInstallation) : Depot × Bool :=
  cacheStep p d false p.equivalent

/-- `PythonDepot._register` (pyenv.py lines 460-475): cache the aliases; if any
was new, append to `available` (problem-free, returning 1) or to `invalid`
(problem set, returning 0); otherwise a no-op returning 0. -/
def register (d : Depot) (p : PythonInstallation) : Depot × Nat :=
  let r := cachedEquivalents d p
  if r.2 then
    if p.problem = none then ({ r.1 with available := r.1.available ++ [p] }, 1)
    else ({ r.1 with invalid := r.1.invalid ++ [p] }, 0)
  else (r.1, 0)

/-- The catalog invariant of the spec: records in `available` are problem-free
and records in `invalid` carry a problem. -/
def depotInv (d : Depot) : Prop :=
  (∀ q ∈ d.available, q.problem = none) ∧ (∀ q ∈ d.invalid, q.problem.isSome)

/-- The empty catalog state `rescan` starts from (pyenv.py lines 215-217). -/
def emptyDepot : Depot := { available := [], invalid := [], cache := [] }

/-! ## `run` (program.py)

`run` is modelled up to the decision to spawn: complete reproduction of the
command resolution, the dry-run branch and the missing-executable branch, with
the outcome `spawn` standing for handing the command to `subprocess`.  The
collaborators from `runez.system` (not among the sources) are explicit
parameters: `shortF` (display shortener), `quotedF` (argument quoting/joining)
and the rendered `PATH` used in the error message; `abort` and `_R.hdry` are
modelled from the spec (§4.4, §9): with dry-run active the gate is taken, and
`abort` raises when fatal is true and otherwise returns the given result.
-/

/-- `os.path.basename` (POSIX): the part after the last slash. -/
def basenameCL (cs : List Char) : List Char :=
  (cs.reverse.takeWhile (fun c => !(c = '/'))).reverse

/-- The fields of `RunResult` (program.py lines 416-457) the claims read,
plus the `audit.dryrun` marker. -/
structure RunResult where
  output : Option String
  error : Option String
  exitCode : Int
  dryrunFlag : Bool
  deriving Repr, DecidableEq

/-- `RunResult.__bool__`: truthy iff the exit code is 0. -/
def runResultTruthy (r : RunResult) : Bool := r.exitCode = 0

/-- Outcome of a `run` call in the model: a result returned without spawning,
an abort raised (fatal path), or a child process spawned. -/
inductive RunAction where
  | returned (r : RunResult)
  | aborted (msg : String) (r : RunResult)
  | spawn (exe : String) (args : List String)
  deriving Repr, DecidableEq

/-- `run` (program.py lines 266-341) up to the spawn decision.  `whichRes` is
the value of `which(program)`; `args` is the already-flattened argument list
(flattening is a collaborator); `stdoutSet` says the `stdout` option is not
`None` (the default is a pipe); `fatal` keeps its three-valued Python form. -/
def runModel (shortF : String → String) (quotedF : List String → String)
    (pathStr : String) (whichRes : Option String) (dryrun : Bool)
    (fatal : Option Bool) (background : Bool) (stdoutSet : Bool)
    (program : String) (args : List String) : RunAction :=
  let description0 := shortF (whichRes.getD program) ++ " " ++ quotedF args
  let description := if background then description0 ++ " &" else description0
  if dryrun then
    .returned { output := if stdoutSet then some ("[dryrun] " ++ description) else none,
                error := if stdoutSet then some "" else none,
                exitCode := 0, dryrunFlag := true }
  else
    match whichRes with
    | none =>
      let msg :=
        if program ≠ "" ∧ basenameCL program.data = program.data then
          shortF program ++ " is not installed (PATH=" ++ pathStr ++ ")"
        else
          shortF program ++ " is not an executable"
      let r : RunResult := { output := none, error := some msg, exitCode := 1,
                             dryrunFlag := false }
      if fatal = some true then .aborted msg r else .returned r
    | some exe => .spawn exe args

/-! ## Helper lemmas -/

theorem length_dropWhile_le (p : α → Bool) (l : List α) :
    (l.dropWhile p).length ≤ l.length := by
  induction l with
  | nil => simp
  | cons a t ih =>
    by_cases h : p a
    · simp only [List.dropWhile_cons_of_pos h]
      exact Nat.le_trans ih (Nat.le_succ _)
    · simp [List.dropWhile_cons_of_neg h]

theorem mem_takeWhile_sat {p : α → Bool} {l : List α} {a : α}
    (h : a ∈ l.takeWhile p) : p a = true := by
  induction l with
  | nil => simp at h
  | cons b t ih =>
    by_cases hb : p b
    · simp only [List.takeWhile_cons_of_pos hb, List.mem_cons] at h
      rcases h with rfl | h
      · exact hb
      · exact ih h
    · simp [List.takeWhile_cons_of_neg hb] at h

theorem dropWhile_eq_self_of_head {p : α → Bool} {l : List α}
    (h : ∀ c, l.head? = some c → p c = false) : l.dropWhile p = l := by
  cases l with
  | nil => rfl
  | cons a t =>
    have ha : ¬ p a = true := by simp [h a rfl]
    exact List.dropWhile_cons_of_neg ha

theorem takeWhile_eq_nil_of_head {p : α → Bool} {l : List α}
    (h : ∀ c, l.head? = some c → p c = false) : l.takeWhile p = [] := by
  cases l with
  | nil => rfl
  | cons a t =>
    have ha : ¬ p a = true := by simp [h a rfl]
    exact List.takeWhile_cons_of_neg ha

theorem pyStrip_eq_self {l : List Char}
    (h1 : l.dropWhile pySpace = l) (h2 : l.reverse.dropWhile pySpace = l.reverse) :
    pyStrip l = l := by
  unfold pyStrip
  rw [h1, h2, List.reverse_reverse]

theorem dropWhile_eq_self_of_length {p : α → Bool} {l : List α}
    (h : (l.dropWhile p).length = l.length) : l.dropWhile p = l := by
  cases l with
  | nil => rfl
  | cons a t =>
    by_cases ha : p a
    · exfalso
      rw [List.dropWhile_cons_of_pos ha] at h
      have := length_dropWhile_le p t
      simp only [List.length_cons] at h
      omega
    · exact List.dropWhile_cons_of_neg ha

theorem pyStrip_stable {l : List Char} (h : pyStrip l = l) :
    l.dropWhile pySpace = l ∧ l.reverse.dropWhile pySpace = l.reverse := by
  unfold pyStrip at h
  have hlen : ((l.dropWhile pySpace).reverse.dropWhile pySpace).length = l.length := by
    rw [← List.length_reverse (((l.dropWhile pySpace).reverse.dropWhile pySpace)), h]
  have h1 : (l.dropWhile pySpace).length = l.length := by
    have a1 := length_dropWhile_le pySpace (l.dropWhile pySpace).reverse
    rw [List.length_reverse] at a1
    have a2 := length_dropWhile_le pySpace l
    omega
  have hd : l.dropWhile pySpace = l := dropWhile_eq_self_of_length h1
  refine ⟨hd, ?_⟩
  rw [hd] at h
  have : (l.reverse.dropWhile pySpace).length = l.reverse.length := by
    rw [← List.length_reverse (l.reverse.dropWhile pySpace), h, List.length_reverse]
  exact dropWhile_eq_self_of_length this

theorem intercalate_eq_dotted (l : List (List Char)) :
    List.intercalate ['.'] l = dotted l := by
  induction l with
  | nil => rfl
  | cons r rs ih =>
    cases rs with
    | nil => simp [List.intercalate, dotted]
    | cons r2 t =>
      simp only [List.intercalate, List.intersperse_cons₂, List.join] at *
      simp [dotted, ih]

theorem dotted_cons (r : List Char) (rs : List (List Char)) (h : rs ≠ []) :
    dotted (r :: rs) = r ++ '.' :: dotted rs := by
  cases rs with
  | nil => exact absurd rfl h
  | cons a t => rfl

/-- Elements of a dotted encoding are dots or characters of the runs. -/
theorem mem_dotted {c : Char} : ∀ {l : List (List Char)}, c ∈ dotted l →
    c = '.' ∨ ∃ r ∈ l, c ∈ r := by
  intro l
  induction l with
  | nil => intro h; simp [dotted] at h
  | cons r rs ih =>
    intro h
    cases rs with
    | nil =>
      simp only [dotted] at h
      exact Or.inr ⟨r, by simp, h⟩
    | cons r2 t =>
      rw [dotted_cons r _ (by simp)] at h
      rcases List.mem_append.mp h with h | h
      · exact Or.inr ⟨r, by simp, h⟩
      · rcases List.mem_cons.mp h with rfl | h
        · exact Or.inl rfl
        · rcases ih h with h | ⟨r3, hr3, hc⟩
          · exact Or.inl h
          · exact Or.inr ⟨r3, by simp [hr3], hc⟩

/-! ## C1, C2, C9: version ordering and `satisfies` -/

/-- C1: the claim says a release (no prerelease tag) compares strictly greater
than a prerelease with the same numeric tuple, as PEP-0440 (named in the
class docstring) prescribes; but `Version.__lt__` returns
`other.prerelease and ...` where the release side would need
`other.prerelease is None or ...`, so the code orders a release **below**
every prerelease with the same tuple: `Version("1.0a1") < Version("1.0")` is
falsy and `Version("1.0") < Version("1.0a1")` is truthy.  (The final part of
the claim, `1.0a1 < 1.0.dev1`, does hold.)  This theorem evaluates the code
at the failing inputs. -/
theorem version_prerelease_ordering_inverted_eval :
    vlt (mkVersion "1.0a1") (mkVersion "1.0") = false
    ∧ vlt (mkVersion "1.0") (mkVersion "1.0a1") = true
    ∧ vlt (mkVersion "1.0.dev1") (mkVersion "1.0") = false
    ∧ vlt (mkVersion "1.0") (mkVersion "1.0.dev1") = true
    ∧ vlt (mkVersion "1.0a1") (mkVersion "1.0.dev1") = true
    ∧ (mkVersion "1.0a1").components = (mkVersion "1.0").components
    ∧ (mkVersion "1.0a1").prerelease = some (['_', 'a'], 1)
    ∧ (mkVersion "1.0").prerelease = none := by
  decide

/-- C2: a problem-free installation satisfies a spec exactly when the spec's
canonical string is in the equivalence set or the record's canonical starts
with it; concretely, a record with canonical `cpython:3.9.7` satisfies the
specs parsed from `3.9` and `cpython` but not the one parsed from `3.10`. -/
theorem satisfies_alias_or_prefix :
    (∀ (p : PythonInstallation) (s : PythonSpec), p.problem = none →
      (satisfies p s = true ↔
        s.canonical ∈ p.equivalent ∨ isPrefixCL s.canonical p.spec.canonical = true))
    ∧ (specFromText "/home/u" "/cwd" "3.9.7").canonical = "cpython:3.9.7".data
    ∧ satisfies { equivalent := ["/opt/py/bin/python".data],
                  spec := specFromText "/home/u" "/cwd" "3.9.7", problem := none }
        (specFromText "/home/u" "/cwd" "3.9") = true
    ∧ satisfies { equivalent := ["/opt/py/bin/python".data],
                  spec := specFromText "/home/u" "/cwd" "3.9.7", problem := none }
        (specFromText "/home/u" "/cwd" "cpython") = true
    ∧ satisfies { equivalent := ["/opt/py/bin/python".data],
                  spec := specFromText "/home/u" "/cwd" "3.9.7", problem := none }
        (specFromText "/home/u" "/cwd" "3.10") = false := by
  refine ⟨?_, by decide, by decide, by decide, by decide⟩
  intro p s hp
  simp [satisfies, hp]

/-- C2 witness. -/
theorem satisfies_alias_or_prefix_witness :
    satisfies { equivalent := [], spec := specFromText "/h" "/c" "3.9.7",
                problem := none } (specFromText "/h" "/c" "3.9") = true ↔
      ((specFromText "/h" "/c" "3.9").canonical ∈
          ({ equivalent := [], spec := specFromText "/h" "/c" "3.9.7",
             problem := none } : PythonInstallation).equivalent
        ∨ isPrefixCL (specFromText "/h" "/c" "3.9").canonical
            (specFromText "/h" "/c" "3.9.7").canonical = true) :=
  satisfies_alias_or_prefix.1
    { equivalent := [], spec := specFromText "/h" "/c" "3.9.7", problem := none }
    (specFromText "/h" "/c" "3.9") rfl

/-- C9: `satisfies` compares canonical strings by plain string prefix, so the
spec parsed from `3.1` (canonical `cpython:3.1`) satisfies a problem-free
record with canonical `cpython:3.10.2`, although `3.1` does not numerically
prefix `3.10.2` (the minor components are 1 and 10). -/
theorem satisfies_string_prefix_not_numeric :
    satisfies { equivalent := [], spec := specFromText "/h" "/c" "3.10.2",
                problem := none } (specFromText "/h" "/c" "3.1") = true
    ∧ (specFromText "/h" "/c" "3.1").canonical = "cpython:3.1".data
    ∧ (specFromText "/h" "/c" "3.10.2").canonical = "cpython:3.10.2".data
    ∧ (mkVersion "3.1").components = some [3, 1, 0, 0, 0]
    ∧ (mkVersion "3.10.2").components = some [3, 10, 2, 0, 0]
    ∧ ((mkVersion "3.10.2").components.getD []).take 2 ≠
        ((mkVersion "3.1").components.getD []).take 2 := by
  decide

/-! ## C7, C8: the `run` model -/

/-- C7: with `dryrun=true` and the default options, `run` never reaches the
spawn outcome: it returns exit code 0 with output `[dryrun] ` followed by the
command description.  (The dry-run gate `_R.hdry` lives in `runez.system` and
is modelled from the spec: with `dryrun=true` the gate is taken.) -/
theorem run_dryrun_returns_without_spawn (shortF : String → String)
    (quotedF : List String → String) (pathStr : String) (whichRes : Option String)
    (fatal : Option Bool) (program : String) (args : List String) :
    runModel shortF quotedF pathStr whichRes true fatal false true program args =
      .returned { output := some ("[dryrun] " ++ (shortF (whichRes.getD program)
                    ++ " " ++ quotedF args)),
                  error := some "", exitCode := 0, dryrunFlag := true }
    ∧ (∀ exe spargs, runModel shortF quotedF pathStr whichRes true fatal false true
          program args ≠ RunAction.spawn exe spargs) := by
  constructor
  · rfl
  · intro exe spargs
    simp [runModel]

/-- C8: with `fatal=false`, a program `which` cannot resolve yields a returned
(never aborted, never spawned) falsy `RunResult` whose error is one of two
non-empty messages: `… is not installed (PATH=…)` for a bare name, `… is not
an executable` otherwise — and those two messages always differ.  (`abort`
lives in `runez.system` and is modelled from the spec: non-fatal, it returns
the given return value instead of raising.) -/
theorem run_missing_program_nonfatal (shortF : String → String)
    (quotedF : List String → String) (pathStr program : String) (args : List String) :
    runModel shortF quotedF pathStr none false (some false) false true program args =
      .returned { output := none,
                  error := some (if program ≠ "" ∧ basenameCL program.data = program.data
                    then shortF program ++ " is not installed (PATH=" ++ pathStr ++ ")"
                    else shortF program ++ " is not an executable"),
                  exitCode := 1, dryrunFlag := false }
    ∧ (if program ≠ "" ∧ basenameCL program.data = program.data
        then shortF program ++ " is not installed (PATH=" ++ pathStr ++ ")"
        else shortF program ++ " is not an executable") ≠ ""
    ∧ (∀ msg r, runModel shortF quotedF pathStr none false (some false) false true
          program args ≠ RunAction.aborted msg r)
    ∧ (∀ exe spargs, runModel shortF quotedF pathStr none false (some false) false true
          program args ≠ RunAction.spawn exe spargs)
    ∧ runResultTruthy
        ({ output := none,
           error := some (if program ≠ "" ∧ basenameCL program.data = program.data
                      then shortF program ++ " is not installed (PATH=" ++ pathStr ++ ")"
                      else shortF program ++ " is not an executable"),
           exitCode := 1, dryrunFlag := false } : RunResult) = false
    ∧ shortF program ++ " is not installed (PATH=" ++ pathStr ++ ")" ≠
        shortF program ++ " is not an executable" := by
  refine ⟨rfl, ?_, ?_, ?_, by simp [runResultTruthy], ?_⟩
  · split
    · intro h
      have hd := congrArg String.data h
      simp only [String.data_append, List.append_assoc] at hd
      rcases List.append_eq_nil.mp hd with ⟨-, hd2⟩
      rcases List.append_eq_nil.mp hd2 with ⟨hlit, -⟩
      exact absurd hlit (by decide)
    · intro h
      have hd := congrArg String.data h
      simp only [String.data_append, List.append_assoc] at hd
      rcases List.append_eq_nil.mp hd with ⟨-, hd2⟩
      exact absurd hd2 (by decide)
  · intro msg r
    simp [runModel]
  · intro exe spargs
    simp [runModel]
  · intro h
    have hd := congrArg String.data h
    simp only [String.data_append, List.append_assoc] at hd
    have htail := List.append_cancel_left hd
    have h8 := congrArg (fun l => l[8]?) htail
    simp only at h8
    rw [List.getElem?_append_left (by decide)] at h8
    exact absurd h8 (by decide)

/-! ## C5, C6: catalog registration -/

theorem cacheStep_lists (p : PythonInstallation) (ks : List (List Char)) :
    ∀ (d : Depot) (flag : Bool),
      (cacheStep p d flag ks).1.available = d.available
      ∧ (cacheStep p d flag ks).1.invalid = d.invalid := by
  induction ks with
  | nil => intro d flag; exact ⟨rfl, rfl⟩
  | cons k t ih =>
    intro d flag
    by_cases h : (lookupCache d.cache k).isSome
    · simpa [cacheStep, h] using ih d flag
    · simpa [cacheStep, h] using ih { d with cache := (k, p) :: d.cache } true

theorem lookupCache_cons_isSome {c : List (List Char × PythonInstallation)}
    {k : List Char} (kv : List Char × PythonInstallation)
    (h : (lookupCache c k).isSome) : (lookupCache (kv :: c) k).isSome := by
  rcases kv with ⟨k1, v1⟩
  by_cases hk : k1 = k
  · simp [lookupCache, hk]
  · simpa [lookupCache, hk] using h

theorem cacheStep_lookup_mono (p : PythonInstallation) (ks : List (List Char)) :
    ∀ (d : Depot) (flag : Bool) (k : List Char),
      (lookupCache d.cache k).isSome →
      (lookupCache (cacheStep p d flag ks).1.cache k).isSome := by
  induction ks with
  | nil => intro d flag k h; exact h
  | cons k1 t ih =>
    intro d flag k h
    by_cases h1 : (lookupCache d.cache k1).isSome
    · simpa [cacheStep, h1] using ih d flag k h
    · simpa [cacheStep, h1] using
        ih { d with cache := (k1, p) :: d.cache } true k (lookupCache_cons_isSome _ h)

theorem cacheStep_covers (p : PythonInstallation) (ks : List (List Char)) :
    ∀ (d : Depot) (flag : Bool), ∀ k ∈ ks,
      (lookupCache (cacheStep p d flag ks).1.cache k).isSome := by
  induction ks with
  | nil => intro d flag k hk; simp at hk
  | cons k1 t ih =>
    intro d flag k hk
    rcases List.mem_cons.mp hk with rfl | hk
    · by_cases h1 : (lookupCache d.cache k).isSome
      · simpa [cacheStep, h1] using cacheStep_lookup_mono p t d flag k h1
      · have hnew : (lookupCache ((k, p) :: d.cache) k).isSome := by simp [lookupCache]
        simpa [cacheStep, h1] using
          cacheStep_lookup_mono p t { d with cache := (k, p) :: d.cache } true k hnew
    · by_cases h1 : (lookupCache d.cache k1).isSome
      · simpa [cacheStep, h1] using ih d flag k hk
      · simpa [cacheStep, h1] using ih { d with cache := (k1, p) :: d.cache } true k hk

theorem cacheStep_noop (p : PythonInstallation) (ks : List (List Char)) :
    ∀ (d : Depot) (flag : Bool), (∀ k ∈ ks, (lookupCache d.cache k).isSome) →
      cacheStep p d flag ks = (d, flag) := by
  induction ks with
  | nil => intro d flag _; rfl
  | cons k1 t ih =>
    intro d flag h
    have h1 := h k1 (by simp)
    simpa [cacheStep, h1] using ih d flag (fun k hk => h k (by simp [hk]))

theorem register_cache (d : Depot) (p : PythonInstallation) :
    (register d p).1.cache = (cachedEquivalents d p).1.cache := by
  unfold register
  by_cases hc : (cachedEquivalents d p).2 = true
  · by_cases hp : p.problem = none <;> simp [hc, hp]
  · simp [hc]

theorem register_available (d : Depot) (p : PythonInstallation) :
    (register d p).1.available =
      if (cachedEquivalents d p).2 = true ∧ p.problem = none
      then d.available ++ [p] else d.available := by
  have h1 : (cachedEquivalents d p).1.available = d.available :=
    (cacheStep_lists p p.equivalent d false).1
  unfold register
  by_cases hc : (cachedEquivalents d p).2 = true
  · by_cases hp : p.problem = none <;> simp [hc, hp, h1]
  · simp [hc, h1]

theorem register_invalid (d : Depot) (p : PythonInstallation) :
    (register d p).1.invalid =
      if (cachedEquivalents d p).2 = true ∧ ¬ p.problem = none
      then d.invalid ++ [p] else d.invalid := by
  have h2 : (cachedEquivalents d p).1.invalid = d.invalid :=
    (cacheStep_lists p p.equivalent d false).2
  unfold register
  by_cases hc : (cachedEquivalents d p).2 = true
  · by_cases hp : p.problem = none <;> simp [hc, hp, h2]
  · simp [hc, h2]

/-- C5: the catalog invariant: a record with a problem set never enters
`available` (which `register` leaves unchanged for it), its aliases are all
cached after registration, it lands in `invalid` exactly when registration
actually inserted it (some alias was new), and it satisfies no spec at all;
a problem-free record that is newly registered is appended to `available`.
The invariant that `available` holds only problem-free records and `invalid`
only problem records holds of the empty rescan state and is preserved by
`register`, which is the sole insertion path used by rescan, find_python and
the PATH scan. -/
theorem problem_records_quarantined (d : Depot) (p : PythonInstallation) :
    (depotInv emptyDepot)
    ∧ (depotInv d → depotInv (register d p).1)
    ∧ (p.problem.isSome →
        (register d p).1.available = d.available
        ∧ (∀ k ∈ p.equivalent, (lookupCache (register d p).1.cache k).isSome)
        ∧ ((cachedEquivalents d p).2 = true → p ∈ (register d p).1.invalid)
        ∧ (∀ s, satisfies p s = false))
    ∧ (p.problem = none → (cachedEquivalents d p).2 = true →
        (register d p).1.available = d.available ++ [p]) := by
  refine ⟨⟨by simp [emptyDepot], by simp [emptyDepot]⟩, ?_, ?_, ?_⟩
  · intro hinv
    constructor
    · intro q hq
      rw [register_available] at hq
      by_cases hcase : (cachedEquivalents d p).2 = true ∧ p.problem = none
      · rw [if_pos hcase] at hq
        rcases List.mem_append.mp hq with hq | hq
        · exact hinv.1 q hq
        · simp at hq
          exact hq ▸ hcase.2
      · rw [if_neg hcase] at hq
        exact hinv.1 q hq
    · intro q hq
      rw [register_invalid] at hq
      by_cases hcase : (cachedEquivalents d p).2 = true ∧ ¬ p.problem = none
      · rw [if_pos hcase] at hq
        rcases List.mem_append.mp hq with hq | hq
        · exact hinv.2 q hq
        · simp at hq
          subst hq
          exact Option.isSome_iff_ne_none.mpr hcase.2
      · rw [if_neg hcase] at hq
        exact hinv.2 q hq
  · intro hp
    have hpne : ¬ p.problem = none := by
      intro h; rw [h] at hp; simp at hp
    refine ⟨?_, ?_, ?_, ?_⟩
    · rw [register_available, if_neg (by simp [hpne])]
    · intro k hk
      rw [register_cache]
      exact cacheStep_covers p p.equivalent d false k hk
    · intro hc
      rw [register_invalid, if_pos ⟨hc, hpne⟩]
      simp
    · intro s
      simp [satisfies, hpne]
  · intro hp hc
    rw [register_available, if_pos ⟨hc, hp⟩]

/-- C5 witness: a concrete problem record registered into the empty catalog. -/
theorem problem_records_quarantined_witness :
    (register emptyDepot
        { equivalent := ["/bad/python".data],
          spec := specFromText "/h" "/c" "3.9", problem := some "broken".data }).1.available = []
    ∧ { equivalent := ["/bad/python".data], spec := specFromText "/h" "/c" "3.9",
        problem := some "broken".data } ∈
        (register emptyDepot
          { equivalent := ["/bad/python".data],
            spec := specFromText "/h" "/c" "3.9",
            problem := some "broken".data }).1.invalid
    ∧ satisfies
        { equivalent := ["/bad/python".data], spec := specFromText "/h" "/c" "3.9",
          problem := some "broken".data } (specFromText "/h" "/c" "3.9") = false
    ∧ depotInv (register emptyDepot
        { equivalent := ["/bad/python".data],
          spec := specFromText "/h" "/c" "3.9", problem := some "broken".data }).1 := by
  have h := problem_records_quarantined emptyDepot
    { equivalent := ["/bad/python".data], spec := specFromText "/h" "/c" "3.9",
      problem := some "broken".data }
  have hp := h.2.2.1 (by decide)
  exact ⟨by simpa [emptyDepot] using hp.1, hp.2.2.1 (by decide),
         hp.2.2.2 (specFromText "/h" "/c" "3.9"), h.2.1 h.1⟩

/-- C6: if every string of the installation's equivalence set is already
cached, `_register` is a complete no-op returning 0 (nothing is appended
anywhere and the cache is unchanged); in particular registering the same
installation a second time never changes the catalog, so the length of
`available` is unchanged and no cache entry is added. -/
theorem register_dedup_noop (d : Depot) (p : PythonInstallation) :
    ((∀ k ∈ p.equivalent, (lookupCache d.cache k).isSome) → register d p = (d, 0))
    ∧ (register (register d p).1 p).1 = (register d p).1
    ∧ ((register (register d p).1 p).1.available.length
        = (register d p).1.available.length) := by
  have hall : ∀ k ∈ p.equivalent, (lookupCache (register d p).1.cache k).isSome := by
    intro k hk
    rw [register_cache]
    exact cacheStep_covers p p.equivalent d false k hk
  have hnoop : ∀ (d0 : Depot), (∀ k ∈ p.equivalent, (lookupCache d0.cache k).isSome) →
      register d0 p = (d0, 0) := by
    intro d0 h0
    have hce : cachedEquivalents d0 p = (d0, false) := cacheStep_noop p p.equivalent d0 false h0
    unfold register
    rw [hce]
    simp
  have h2 := hnoop (register d p).1 hall
  exact ⟨hnoop d, by rw [h2], by rw [h2]⟩

/-- C6 witness: registering a concrete installation twice. -/
theorem register_dedup_noop_witness :
    register (register emptyDepot
        { equivalent := ["/usr/bin/python3".data, "/usr/bin/python3.9".data],
          spec := specFromText "/h" "/c" "3.9", problem := none }).1
      { equivalent := ["/usr/bin/python3".data, "/usr/bin/python3.9".data],
        spec := specFromText "/h" "/c" "3.9", problem := none } =
    ((register emptyDepot
        { equivalent := ["/usr/bin/python3".data, "/usr/bin/python3.9".data],
          spec := specFromText "/h" "/c" "3.9", problem := none }).1, 0) :=
  (register_dedup_noop (register emptyDepot
      { equivalent := ["/usr/bin/python3".data, "/usr/bin/python3.9".data],
        spec := specFromText "/h" "/c" "3.9", problem := none }).1
    { equivalent := ["/usr/bin/python3".data, "/usr/bin/python3.9".data],
      spec := specFromText "/h" "/c" "3.9", problem := none }).1 (by decide)

/-! ## General facts about `R_VERSION` matching on dotted numeric strings -/

theorem takeWhile_all {p : α → Bool} {l : List α} (h : ∀ c ∈ l, p c = true) :
    l.takeWhile p = l ∧ l.dropWhile p = [] := by
  induction l with
  | nil => exact ⟨rfl, rfl⟩
  | cons a t ih =>
    have ha := h a (by simp)
    have iht := ih (fun c hc => h c (by simp [hc]))
    exact ⟨by rw [List.takeWhile_cons_of_pos ha, iht.1],
           by rw [List.dropWhile_cons_of_pos ha, iht.2]⟩

theorem digits_run_split {r s : List Char} (hr : ∀ c ∈ r, c.isDigit = true)
    (hs : ∀ c, s.head? = some c → c.isDigit = false) :
    (r ++ s).takeWhile Char.isDigit = r ∧ (r ++ s).dropWhile Char.isDigit = s := by
  refine ⟨?_, ?_⟩
  · rw [List.takeWhile_append_of_pos hr, takeWhile_eq_nil_of_head hs, List.append_nil]
  · rw [List.dropWhile_append_of_pos hr, dropWhile_eq_self_of_head hs]

theorem tailStop_head {s : List Char} (h : tailStop s = true) :
    ∀ c, s.head? = some c → c.isDigit = false := by
  intro c hc
  cases s with
  | nil => simp at hc
  | cons a t =>
    have hac : a = c := by simpa using hc
    subst hac
    by_cases ha : a = '.'
    · subst ha; decide
    · simp only [tailStop, if_neg ha, Bool.not_eq_true'] at h
      exact h

theorem encTail_head (rs : List (List Char)) {s : List Char} (hts : tailStop s = true) :
    ∀ c, (encTail rs s).head? = some c → c.isDigit = false := by
  cases rs with
  | nil => exact tailStop_head hts
  | cons r t =>
    intro c hc
    have : encTail (r :: t) s = '.' :: (r ++ encTail t s) := rfl
    rw [this] at hc
    simp only [List.head?_cons, Option.some.injEq] at hc
    subst hc
    decide

theorem dotRunsAux_enc (rs : List (List Char)) :
    ∀ (s : List Char) (fuel : Nat), (∀ r ∈ rs, digitRun r) → tailStop s = true →
      rs.length ≤ fuel → dotRunsAux fuel (encTail rs s) = (rs, s) := by
  induction rs with
  | nil =>
    intro s fuel _ hts _
    show dotRunsAux fuel s = ([], s)
    cases fuel with
    | zero => rfl
    | succ fuel =>
      cases s with
      | nil => rfl
      | cons c rest =>
        simp only [dotRunsAux]
        by_cases hc : c = '.'
        · subst hc
          rw [if_pos rfl]
          have hnil : rest.takeWhile Char.isDigit = [] := by
            cases rest with
            | nil => rfl
            | cons c2 t2 =>
              have h2 : c2.isDigit = false := by
                simpa [tailStop] using hts
              exact takeWhile_eq_nil_of_head
                (by intro x hx; simp only [List.head?_cons, Option.some.injEq] at hx;
                    exact hx ▸ h2)
          simp [hnil]
        · rw [if_neg hc]
  | cons r t ih =>
    intro s fuel hd hts hlen
    cases fuel with
    | zero => simp at hlen
    | succ fuel =>
      have hr := hd r (by simp)
      have hsplit := digits_run_split hr.2 (encTail_head t hts)
      show dotRunsAux (fuel + 1) ('.' :: (r ++ encTail t s)) = (r :: t, s)
      simp only [dotRunsAux, if_pos rfl]
      rw [hsplit.1, hsplit.2]
      have hrec := ih s fuel (fun x hx => hd x (by simp [hx])) hts
        (by simpa using Nat.succ_le_succ_iff.mp hlen)
      rw [hrec]
      simp [hr.1]

theorem length_le_encTail (rs : List (List Char)) (s : List Char) :
    rs.length ≤ (encTail rs s).length := by
  induction rs with
  | nil => simp
  | cons r t ih =>
    have : encTail (r :: t) s = '.' :: (r ++ encTail t s) := rfl
    rw [this]
    simp only [List.length_cons, List.length_append]
    omega

theorem dotRuns_enc (rs : List (List Char)) (s : List Char)
    (hd : ∀ r ∈ rs, digitRun r) (hts : tailStop s = true) :
    dotRuns (encTail rs s) = (rs, s) :=
  dotRunsAux_enc rs s (encTail rs s).length hd hts (length_le_encTail rs s)

theorem dotted_append_encTail (r0 : List Char) (rest : List (List Char)) (s : List Char) :
    dotted (r0 :: rest) ++ s = r0 ++ encTail rest s := by
  induction rest generalizing r0 with
  | nil => simp [dotted, encTail]
  | cons r2 t ih =>
    rw [dotted_cons r0 (r2 :: t) (by simp)]
    have h1 : encTail (r2 :: t) s = '.' :: (r2 ++ encTail t s) := rfl
    rw [h1, List.append_assoc, List.cons_append, ih r2]

/-- `R_VERSION` on a dotted digit string followed by a stop suffix: the match
consumes the first run as `major`, the remaining runs into group 3, and hands
the suffix to the prerelease/release groups. -/
theorem rMatch_dotted_gen (r0 : List Char) (rest : List (List Char)) (s : List Char)
    (hd : ∀ r ∈ r0 :: rest, digitRun r) (hts : tailStop s = true)
    (hpre : preMark s = none)
    (rel : Option (List Char × List Char)) (r4 : List Char)
    (hrel : (match relMark s with
             | some (p, r) => (some p, r)
             | none => ((none : Option (List Char × List Char)), s)) = (rel, r4))
    (hto : tailOk r4 = true) :
    rMatch (dotted (r0 :: rest) ++ s) =
      some { text := (dotted (r0 :: rest) ++ s).take
                ((dotted (r0 :: rest) ++ s).length - r4.length),
             major := r0, mains := rest, pre := none, rel := rel } := by
  have hr0 := hd r0 (by simp)
  have henc := dotted_append_encTail r0 rest s
  have hsplit : (dotted (r0 :: rest) ++ s).takeWhile Char.isDigit = r0
      ∧ (dotted (r0 :: rest) ++ s).dropWhile Char.isDigit = encTail rest s := by
    rw [henc]
    exact digits_run_split hr0.2 (encTail_head rest hts)
  have hruns : dotRuns (encTail rest s) = (rest, s) :=
    dotRuns_enc rest s (fun x hx => hd x (by simp [hx])) hts
  have hne : r0.isEmpty = false := by
    cases r0 with
    | nil => exact absurd rfl hr0.1
    | cons _ _ => rfl
  unfold rMatch
  simp only [hsplit.1, hsplit.2, hruns, hne, hpre, hrel, hto, Bool.false_eq_true,
    if_false, if_true]

/-- `R_VERSION` on a pure dotted digit string: everything is consumed. -/
theorem rMatch_dotted (r0 : List Char) (rest : List (List Char))
    (hd : ∀ r ∈ r0 :: rest, digitRun r) :
    rMatch (dotted (r0 :: rest)) =
      some { text := dotted (r0 :: rest), major := r0, mains := rest,
             pre := none, rel := none } := by
  have h := rMatch_dotted_gen r0 rest [] hd rfl rfl none [] rfl rfl
  rw [List.append_nil] at h
  rw [List.length_nil, Nat.sub_zero, List.take_length] at h
  exact h

/-- `R_VERSION` on a dotted digit string followed by `.dev<digits>`: the dev
marker is captured in the release group with its numeral. -/
theorem rMatch_dotted_dev (r0 : List Char) (rest : List (List Char)) (n : List Char)
    (hd : ∀ r ∈ r0 :: rest, digitRun r) (hn : digitRun n) :
    rMatch (dotted (r0 :: rest) ++ '.' :: 'd' :: 'e' :: 'v' :: n) =
      some { text := dotted (r0 :: rest) ++ '.' :: 'd' :: 'e' :: 'v' :: n,
             major := r0, mains := rest, pre := none,
             rel := some (['d', 'e', 'v'], n) } := by
  have hndot : ∀ c t, n = c :: t → ¬ c = '.' := by
    intro c t hc hdot
    have := hn.2 c (by simp [hc])
    rw [hdot] at this
    exact absurd this (by decide)
  have hts : tailStop ('.' :: 'd' :: 'e' :: 'v' :: n) = true := rfl
  have hpre : preMark ('.' :: 'd' :: 'e' :: 'v' :: n) = none := rfl
  have hp : isPrefixCL ['d', 'e', 'v'] ('d' :: 'e' :: 'v' :: n) = true := by
    simp [isPrefixCL]
  have hrel : relMark ('.' :: 'd' :: 'e' :: 'v' :: n) = some ((['d', 'e', 'v'], n), []) := by
    cases n with
    | nil => exact absurd rfl hn.1
    | cons c t =>
      have hall := takeWhile_all (p := Char.isDigit) (l := c :: t) hn.2
      simp only [relMark, if_pos rfl]
      rw [if_pos hp]
      show relNum ['d', 'e', 'v'] (c :: t) = some ((['d', 'e', 'v'], c :: t), [])
      simp [relNum, if_neg (hndot c t rfl), markDigits, hall.1, hall.2]
  have h := rMatch_dotted_gen r0 rest ('.' :: 'd' :: 'e' :: 'v' :: n) hd hts hpre
    (some (['d', 'e', 'v'], n)) [] (by rw [hrel]) rfl
  rw [List.length_nil, Nat.sub_zero, List.take_length] at h
  exact h

/-- `Version.__init__` on a dotted digit string with at most 4 runs. -/
theorem mkVersionCore_dotted (r0 : List Char) (rest : List (List Char))
    (hd : ∀ r ∈ r0 :: rest, digitRun r) (hlen : (r0 :: rest).length ≤ 4) :
    mkVersionCore (dotted (r0 :: rest)) 4 =
      { text := dotted (r0 :: rest),
        components := some ((r0 :: rest).map digitsVal
          ++ (List.replicate (4 - (r0 :: rest).length) 0 ++ [0])),
        prerelease := none } := by
  unfold mkVersionCore
  rw [rMatch_dotted r0 rest hd]
  simp only [List.length_cons] at hlen
  simp
  omega

/-- `Version.__init__` on a dotted digit string with more than 4 runs. -/
theorem mkVersionCore_dotted_long (r0 : List Char) (rest : List (List Char))
    (hd : ∀ r ∈ r0 :: rest, digitRun r) (hlen : 4 < (r0 :: rest).length) :
    mkVersionCore (dotted (r0 :: rest)) 4 =
      { text := dotted (r0 :: rest), components := none, prerelease := none } := by
  unfold mkVersionCore
  rw [rMatch_dotted r0 rest hd]
  simp only [List.length_cons] at hlen
  simp
  omega

/-- `Version.__init__` on a dotted digit string followed by `.dev<digits>`. -/
theorem mkVersionCore_dotted_dev (r0 : List Char) (rest : List (List Char)) (n : List Char)
    (hd : ∀ r ∈ r0 :: rest, digitRun r) (hn : digitRun n)
    (hlen : (r0 :: rest).length ≤ 4) :
    mkVersionCore (dotted (r0 :: rest) ++ '.' :: 'd' :: 'e' :: 'v' :: n) 4 =
      { text := dotted (r0 :: rest) ++ '.' :: 'd' :: 'e' :: 'v' :: n,
        components := some ((r0 :: rest).map digitsVal
          ++ (List.replicate (4 - (r0 :: rest).length) 0 ++ [0])),
        prerelease := some (['d', 'e', 'v'], 0) } := by
  unfold mkVersionCore
  rw [rMatch_dotted_dev r0 rest n hd hn]
  simp only [List.length_cons] at hlen
  simp
  omega

/-! ## C3 and C10 -/

/-- C3: parsing a dotted numeric string with at most 4 runs yields a valid
Version whose tuple is the runs zero-padded to length 4 plus the release slot
(so `Version("1.2")` and `Version("1.2.0.0")` are equal), and parsing one
with more than 4 runs yields an invalid Version carrying no tuple. -/
theorem version_parse_pads_to_fixed_length (rs : List (List Char))
    (h0 : rs ≠ []) (hd : ∀ r ∈ rs, digitRun r) :
    (rs.length ≤ 4 →
      (mkVersionCore (dotted rs) 4).components =
          some (rs.map digitsVal ++ (List.replicate (4 - rs.length) 0 ++ [0]))
      ∧ (mkVersionCore (dotted rs) 4).components.isSome = true
      ∧ (mkVersionCore (dotted rs) 4).prerelease = none)
    ∧ (4 < rs.length → (mkVersionCore (dotted rs) 4).components = none)
    ∧ veq (mkVersion "1.2") (mkVersion "1.2.0.0") = true := by
  cases rs with
  | nil => exact absurd rfl h0
  | cons r0 rest =>
    refine ⟨fun hlen => ?_, fun hlen => ?_, by decide⟩
    · rw [mkVersionCore_dotted r0 rest hd hlen]
      exact ⟨rfl, rfl, rfl⟩
    · rw [mkVersionCore_dotted_long r0 rest hd hlen]

/-- C3 witness: the two-run string `1.2`. -/
theorem version_parse_pads_to_fixed_length_witness :
    (mkVersionCore (dotted [['1'], ['2']]) 4).components =
        some ([['1'], ['2']].map digitsVal
          ++ (List.replicate (4 - ([['1'], ['2']] : List (List Char)).length) 0 ++ [0]))
    ∧ (mkVersionCore (dotted [['1'], ['2']]) 4).components.isSome = true
    ∧ (mkVersionCore (dotted [['1'], ['2']]) 4).prerelease = none :=
  (version_parse_pads_to_fixed_length [['1'], ['2']] (by decide)
    (by decide)).1 (by decide)

/-- C10: the numeral after a `dev` marker is discarded: two versions identical
except for the dev numeral parse to the same tuple and the same prerelease
pair `("dev", 0)`, compare equal, and neither is less than the other. -/
theorem dev_numeral_discarded (rs : List (List Char)) (n1 n2 : List Char)
    (h0 : rs ≠ []) (hlen : rs.length ≤ 4) (hd : ∀ r ∈ rs, digitRun r)
    (hn1 : digitRun n1) (hn2 : digitRun n2) :
    veq (mkVersionCore (dotted rs ++ '.' :: 'd' :: 'e' :: 'v' :: n1) 4)
        (mkVersionCore (dotted rs ++ '.' :: 'd' :: 'e' :: 'v' :: n2) 4) = true
    ∧ (mkVersionCore (dotted rs ++ '.' :: 'd' :: 'e' :: 'v' :: n1) 4).prerelease
        = some (['d', 'e', 'v'], 0)
    ∧ vlt (mkVersionCore (dotted rs ++ '.' :: 'd' :: 'e' :: 'v' :: n1) 4)
          (mkVersionCore (dotted rs ++ '.' :: 'd' :: 'e' :: 'v' :: n2) 4) = false
    ∧ vlt (mkVersionCore (dotted rs ++ '.' :: 'd' :: 'e' :: 'v' :: n2) 4)
          (mkVersionCore (dotted rs ++ '.' :: 'd' :: 'e' :: 'v' :: n1) 4) = false
    ∧ veq (mkVersion "1.0.dev1") (mkVersion "1.0.dev2") = true := by
  cases rs with
  | nil => exact absurd rfl h0
  | cons r0 rest =>
    rw [mkVersionCore_dotted_dev r0 rest n1 hd hn1 hlen,
        mkVersionCore_dotted_dev r0 rest n2 hd hn2 hlen]
    have hpre : preLt (['d', 'e', 'v'], 0) (['d', 'e', 'v'], 0) = false := by decide
    refine ⟨by simp [veq], rfl, ?_, ?_, by decide⟩
    · simp [vlt, hpre]
    · simp [vlt, hpre]

/-! ## Helper lemmas for spec canonicalization (C4) -/

theorem isPrefixCL_single {c : Char} {l : List Char} :
    isPrefixCL [c] l = true ↔ ∃ t, l = c :: t := by
  cases l with
  | nil => simp [isPrefixCL]
  | cons a t =>
    simp only [isPrefixCL, Bool.and_eq_true, decide_eq_true_eq]
    constructor
    · rintro ⟨rfl, -⟩
      exact ⟨t, rfl⟩
    · rintro ⟨t2, ht⟩
      cases ht
      simp [isPrefixCL]

theorem getLast?_mem' {l : List α} {a : α} (h : l.getLast? = some a) : a ∈ l := by
  induction l with
  | nil => simp at h
  | cons b t ih =>
    cases t with
    | nil =>
      simp only [List.getLast?_singleton, Option.some.injEq] at h
      simp [h]
    | cons c t2 =>
      rw [List.getLast?_cons_cons] at h
      exact List.mem_cons_of_mem b (ih h)

theorem getLast?_append_right' {a b : List α} (h : b ≠ []) :
    (a ++ b).getLast? = b.getLast? := by
  have hs : b.getLast?.isSome := List.getLast?_isSome.mpr h
  rcases Option.isSome_iff_exists.mp hs with ⟨x, hx⟩
  rw [List.getLast?_append, hx]
  rfl

theorem getLast?_cons_of_ne {a : α} {t : List α} (h : t ≠ []) :
    (a :: t).getLast? = t.getLast? := by
  cases t with
  | nil => exact absurd rfl h
  | cons b t2 => exact List.getLast?_cons_cons

theorem pyStrip_last {l : List Char} (h : pyStrip l = l) {x : Char}
    (hx : l.getLast? = some x) : pySpace x = false := by
  have hrev := (pyStrip_stable h).2
  have hhead : l.reverse.head? = some x := by
    rw [List.head?_reverse]
    exact hx
  cases hr : l.reverse with
  | nil =>
    rw [hr] at hhead
    simp at hhead
  | cons c t =>
    rw [hr] at hhead hrev
    have hcx : c = x := by simpa using hhead
    subst hcx
    by_cases hp : pySpace c = true
    · rw [List.dropWhile_cons_of_pos hp] at hrev
      have := congrArg List.length hrev
      simp at this
      have := length_dropWhile_le pySpace t
      omega
    · simpa using hp

theorem pyStrip_of_ends {l : List Char} {a : Char}
    (hh : l.head? = some a) (ha : pySpace a = false)
    (hl : ∀ x, l.getLast? = some x → pySpace x = false) : pyStrip l = l := by
  apply pyStrip_eq_self
  · apply dropWhile_eq_self_of_head
    intro c hc
    rw [hh] at hc
    cases hc
    exact ha
  · apply dropWhile_eq_self_of_head
    intro c hc
    rw [List.head?_reverse] at hc
    exact hl c hc

theorem dotted_head {r0 : List Char} (rest : List (List Char)) {ch : Char} {t : List Char}
    (h : r0 = ch :: t) : (dotted (r0 :: rest)).head? = some ch := by
  cases rest with
  | nil => rw [show dotted [r0] = r0 from rfl, h]; rfl
  | cons r2 t2 =>
    rw [dotted_cons r0 (r2 :: t2) (by simp), h]
    rfl

theorem dotted_getLast {comps : List (List Char)} (h0 : comps ≠ [])
    (hd : ∀ r ∈ comps, digitRun r) :
    ∃ ch, (dotted comps).getLast? = some ch ∧ ch.isDigit = true := by
  induction comps with
  | nil => exact absurd rfl h0
  | cons r rest ih =>
    cases hrest : rest with
    | nil =>
      have hr := hd r (by simp)
      have : dotted [r] = r := rfl
      rw [this]
      cases hlast : r.getLast? with
      | none => exact absurd (List.getLast?_eq_none_iff.mp hlast) hr.1
      | some ch => exact ⟨ch, rfl, hr.2 ch (getLast?_mem' hlast)⟩
    | cons r2 t2 =>
      rcases ih (by rw [hrest]; simp) (fun x hx => hd x (by simp [hx])) with ⟨ch, hch, hdig⟩
      refine ⟨ch, ?_, hdig⟩
      subst hrest
      have hr2 := hd r2 (by simp)
      obtain ⟨c2, t3, hc2⟩ : ∃ c2 t3, r2 = c2 :: t3 := by
        cases r2 with
        | nil => exact absurd rfl hr2.1
        | cons a b => exact ⟨a, b, rfl⟩
      have hdne : dotted (r2 :: t2) ≠ [] := by
        intro hcon
        have hh := dotted_head t2 hc2
        rw [hcon] at hh
        simp at hh
      rw [dotted_cons r (r2 :: t2) (by simp)]
      rw [getLast?_append_right' (by simp)]
      rw [getLast?_cons_of_ne hdne]
      exact hch

theorem isPrefixCL_append_self (p : List Char) (s : List Char) :
    isPrefixCL p (p ++ s) = true := by
  induction p with
  | nil => rfl
  | cons a t ih => simp [isPrefixCL, ih]

theorem containsSub_of_prefix {l pat : List Char} (h : isPrefixCL pat l = true) :
    containsSub l pat = true := by
  cases l with
  | nil =>
    cases pat with
    | nil => rfl
    | cons _ _ => simp [isPrefixCL] at h
  | cons a t => simp [containsSub, h]

theorem containsSub_false {hay : List Char} {p0 : Char} {pt : List Char}
    (h : ∀ x ∈ hay, ¬ x = p0) : containsSub hay (p0 :: pt) = false := by
  induction hay with
  | nil => rfl
  | cons a t ih =>
    have ha : ¬ p0 = a := fun hh => h a (by simp) hh.symm
    simp [containsSub, isPrefixCL, ha, ih (fun x hx => h x (by simp [hx]))]

theorem guessFamily_canonical {f v : List Char}
    (hf : f = ['c', 'p', 'y', 't', 'h', 'o', 'n'] ∨ f = ['p', 'y', 'p', 'y']
      ∨ f = ['c', 'o', 'n', 'd', 'a'])
    (hv : ∀ c ∈ v, c = '.' ∨ c.isDigit = true) :
    guessFamily (f ++ ':' :: v) = f := by
  have hvng : ∀ (y : Char), y.isDigit = false → ¬ y = ':' → ¬ y = '.' →
      ∀ x ∈ ':' :: v, ¬ x = y := by
    intro y hy hyc hyd x hx hxy
    rcases List.mem_cons.mp hx with hc | hmem
    · exact hyc (hxy.symm.trans hc)
    · rcases hv x hmem with hdot | hdig
      · exact hyd (hxy.symm.trans hdot)
      · rw [hxy] at hdig
        rw [hdig] at hy
        simp at hy
  rcases hf with rfl | rfl | rfl
  · have h1 : containsSub (['c', 'p', 'y', 't', 'h', 'o', 'n'] ++ ':' :: v)
        ['c', 'p', 'y', 't', 'h', 'o', 'n'] = true :=
      containsSub_of_prefix (isPrefixCL_append_self _ _)
    unfold guessFamily
    rw [if_pos h1]
  · have hnoc : containsSub (['p', 'y', 'p', 'y'] ++ ':' :: v)
        ('c' :: ['p', 'y', 't', 'h', 'o', 'n']) = false := by
      apply containsSub_false
      intro x hx
      rcases List.mem_append.mp hx with hx | hx
      · simp only [List.mem_cons, List.not_mem_nil, or_false] at hx
        rcases hx with rfl | rfl | rfl | rfl <;> decide
      · exact hvng 'c' (by decide) (by decide) (by decide) x hx
    have hp : containsSub (['p', 'y', 'p', 'y'] ++ ':' :: v) ['p', 'y', 'p', 'y'] = true :=
      containsSub_of_prefix (isPrefixCL_append_self _ _)
    unfold guessFamily
    rw [if_neg (by rw [show (['c', 'p', 'y', 't', 'h', 'o', 'n'] : List Char)
          = 'c' :: ['p', 'y', 't', 'h', 'o', 'n'] from rfl, hnoc]; simp), if_pos hp]
  · have htail : containsSub (['o', 'n', 'd', 'a'] ++ ':' :: v)
        ('c' :: ['p', 'y', 't', 'h', 'o', 'n']) = false := by
      apply containsSub_false
      intro x hx
      rcases List.mem_append.mp hx with hx | hx
      · simp only [List.mem_cons, List.not_mem_nil, or_false] at hx
        rcases hx with rfl | rfl | rfl | rfl <;> decide
      · exact hvng 'c' (by decide) (by decide) (by decide) x hx
    have hcp : containsSub (['c', 'o', 'n', 'd', 'a'] ++ ':' :: v)
        ['c', 'p', 'y', 't', 'h', 'o', 'n'] = false := by
      show ((isPrefixCL ['c', 'p', 'y', 't', 'h', 'o', 'n']
          ('c' :: (['o', 'n', 'd', 'a'] ++ ':' :: v))) ||
        containsSub (['o', 'n', 'd', 'a'] ++ ':' :: v) ['c', 'p', 'y', 't', 'h', 'o', 'n']) = false
      rw [htail]
      simp [isPrefixCL]
    have hpp : containsSub (['c', 'o', 'n', 'd', 'a'] ++ ':' :: v)
        ('p' :: ['y', 'p', 'y']) = false := by
      apply containsSub_false
      intro x hx
      rcases List.mem_append.mp hx with hx | hx
      · simp only [List.mem_cons, List.not_mem_nil, or_false] at hx
        rcases hx with rfl | rfl | rfl | rfl | rfl <;> decide
      · exact hvng 'p' (by decide) (by decide) (by decide) x hx
    have hp : containsSub (['c', 'o', 'n', 'd', 'a'] ++ ':' :: v)
        ['c', 'o', 'n', 'd', 'a'] = true :=
      containsSub_of_prefix (isPrefixCL_append_self _ _)
    unfold guessFamily
    rw [if_neg (by rw [hcp]; simp),
        if_neg (by rw [show (['p', 'y', 'p', 'y'] : List Char)
          = 'p' :: ['y', 'p', 'y'] from rfl, hpp]; simp), if_pos hp]

/-- A non-digit, non-dot, non-space, non-separator head makes the whole
separator/digits/end continuation of `R_SPEC` fail. -/
theorem rsAfterFam_stuck {c : Char} {rest : List Char}
    (h1 : c.isDigit = false) (h2 : ¬ c = '.') (h3 : pySpace c = false)
    (h4 : ¬ c = ':') (h5 : ¬ c = '-') :
    rsAfterFam (c :: rest) = none := by
  have hhead : ∀ x, (c :: rest).head? = some x → pySpace x = false := by
    intro x hx
    have : c = x := by simpa using hx
    exact this ▸ h3
  have hdig : ∀ x, (c :: rest).head? = some x → Char.isDigit x = false := by
    intro x hx
    have : c = x := by simpa using hx
    exact this ▸ h1
  have hdw : (c :: rest).dropWhile pySpace = c :: rest := dropWhile_eq_self_of_head hhead
  have htw : (c :: rest).takeWhile Char.isDigit = [] := takeWhile_eq_nil_of_head hdig
  have hdd : (c :: rest).dropWhile Char.isDigit = c :: rest := dropWhile_eq_self_of_head hdig
  have ht2 : rsTail2 (c :: rest) = none := by
    simp only [rsTail2, htw, hdd]
    simp [h2, hdw]
  have hD : rsDigits (c :: rest) = none := by
    simp only [rsDigits, htw, hdd]
    simp [h2, ht2]
  have hDw : rsDigitsWs (c :: rest) = none := by
    simp only [rsDigitsWs, hdw, hD]
  simp only [rsAfterFam, hdw]
  simp [h4, h5, hDw]

theorem rsTail2_one {r2 : List Char} (h : ∀ x ∈ r2, x.isDigit = true) :
    rsTail2 r2 = some (r2, []) := by
  have hall := takeWhile_all h
  simp only [rsTail2, hall.1, hall.2]
  simp

theorem rsTail2_two {r2 r3 : List Char} (h2 : ∀ x ∈ r2, x.isDigit = true)
    (h3r : digitRun r3) :
    rsTail2 (r2 ++ '.' :: r3) = some (r2, r3) := by
  have hsplit := digits_run_split h2 (s := '.' :: r3)
    (by intro x hx
        have : '.' = x := by simpa using hx
        exact this ▸ (by decide))
  have hall3 := takeWhile_all h3r.2
  simp only [rsTail2, hsplit.1, hsplit.2]
  simp [hall3.1, hall3.2]

theorem rsDigits_one {r1 : List Char} (h : digitRun r1) :
    rsDigits (dotted [r1]) = some (r1, [], []) := by
  have hall := takeWhile_all h.2
  show rsDigits r1 = some (r1, [], [])
  simp only [rsDigits, hall.1, hall.2]
  simp [rsTail2]

theorem rsDigits_two {r1 r2 : List Char} (h1 : digitRun r1) (h2 : digitRun r2) :
    rsDigits (dotted [r1, r2]) = some (r1, r2, []) := by
  have hD : dotted [r1, r2] = r1 ++ '.' :: r2 := by
    rw [dotted_cons r1 [r2] (by simp)]
    rfl
  have hsplit := digits_run_split h1.2 (s := '.' :: r2)
    (by intro x hx
        have : '.' = x := by simpa using hx
        exact this ▸ (by decide))
  rw [hD]
  simp only [rsDigits, hsplit.1, hsplit.2]
  simp [rsTail2_one h2.2]

theorem rsDigits_three {r1 r2 r3 : List Char} (h1 : digitRun r1) (h2 : digitRun r2)
    (h3 : digitRun r3) :
    rsDigits (dotted [r1, r2, r3]) = some (r1, r2, r3) := by
  have hD : dotted [r1, r2, r3] = r1 ++ '.' :: (r2 ++ '.' :: r3) := by
    rw [dotted_cons r1 [r2, r3] (by simp), dotted_cons r2 [r3] (by simp)]
    rfl
  have hsplit := digits_run_split h1.2 (s := '.' :: (r2 ++ '.' :: r3))
    (by intro x hx
        have : '.' = x := by simpa using hx
        exact this ▸ (by decide))
  rw [hD]
  simp only [rsDigits, hsplit.1, hsplit.2]
  simp [rsTail2_two h2.2 h3]

/-- The continuation after the family word, applied to `:<digits…>`. -/
theorem rsAfterFam_colon {X : List Char} {g : List Char × List Char × List Char}
    (hg : rsDigits X = some g)
    (hX : ∀ x, X.head? = some x → pySpace x = false) :
    rsAfterFam (':' :: X) = some g := by
  have hdw : (':' :: X).dropWhile pySpace = ':' :: X := by
    apply dropWhile_eq_self_of_head
    intro x hx
    have : ':' = x := by simpa using hx
    exact this ▸ (by decide)
  have hw : rsDigitsWs X = some g := by
    simp [rsDigitsWs, dropWhile_eq_self_of_head hX, hg]
  simp only [rsAfterFam, hdw]
  simp [hw]

theorem rsTail2_digits {cs : List Char} {g : List Char × List Char}
    (h : rsTail2 cs = some g) :
    (∀ x ∈ g.1, x.isDigit = true) ∧ (∀ x ∈ g.2, x.isDigit = true) := by
  simp only [rsTail2] at h
  split at h
  · next g2 heq =>
    cases h
    split at heq
    · next c rest hr =>
      split at heq
      · split at heq
        · cases heq
          exact ⟨fun x hx => mem_takeWhile_sat hx, fun x hx => mem_takeWhile_sat hx⟩
        · cases heq
      · cases heq
    · cases heq
  · split at h
    · cases h
      exact ⟨fun x hx => mem_takeWhile_sat hx, by simp⟩
    · cases h

theorem rsDigits_digits {cs : List Char} {g : List Char × List Char × List Char}
    (h : rsDigits cs = some g) :
    (∀ x ∈ g.1, x.isDigit = true) ∧ (∀ x ∈ g.2.1, x.isDigit = true)
    ∧ (∀ x ∈ g.2.2, x.isDigit = true) := by
  simp only [rsDigits] at h
  split at h
  · next g2 heq =>
    cases h
    split at heq
    · next c rest hr =>
      split at heq
      · rcases hmap : rsTail2 rest with _ | g3
        · rw [hmap] at heq
          cases heq
        · rw [hmap] at heq
          have hT := rsTail2_digits hmap
          simp only [Option.map_some'] at heq
          cases heq
          exact ⟨fun x hx => mem_takeWhile_sat hx, hT.1, hT.2⟩
      · cases heq
    · cases heq
  · rcases hmap : rsTail2 (cs.dropWhile Char.isDigit) with _ | g3
    · rw [hmap] at h
      cases h
    · rw [hmap] at h
      have hT := rsTail2_digits hmap
      simp only [Option.map_some'] at h
      cases h
      exact ⟨fun x hx => mem_takeWhile_sat hx, hT.1, hT.2⟩

theorem rsAfterFam_digits {cs : List Char} {g : List Char × List Char × List Char}
    (h : rsAfterFam cs = some g) :
    (∀ x ∈ g.1, x.isDigit = true) ∧ (∀ x ∈ g.2.1, x.isDigit = true)
    ∧ (∀ x ∈ g.2.2, x.isDigit = true) := by
  simp only [rsAfterFam] at h
  split at h
  · next c rest hr =>
    split at h
    · split at h
      · next g2 heq =>
        cases h
        exact rsDigits_digits (by simpa [rsDigitsWs] using heq)
      · exact rsDigits_digits (by simpa [rsDigitsWs] using h)
    · exact rsDigits_digits (by simpa [rsDigitsWs] using h)
  · exact rsDigits_digits (by simpa [rsDigitsWs] using h)

theorem tryFams_digits {fs : List (List Char)} {cs : List Char}
    {g : List Char × List Char × List Char}
    (h : tryFams fs cs = some g) :
    (∀ x ∈ g.1, x.isDigit = true) ∧ (∀ x ∈ g.2.1, x.isDigit = true)
    ∧ (∀ x ∈ g.2.2, x.isDigit = true) := by
  induction fs with
  | nil => simp [tryFams] at h
  | cons f fs ih =>
    unfold tryFams at h
    by_cases hp : isPrefixCI f cs = true
    · rw [if_pos hp] at h
      rcases hmap : rsAfterFam (cs.drop f.length) with _ | g2
      · rw [hmap] at h
        exact ih h
      · rw [hmap] at h
        simp at h
        subst h
        exact rsAfterFam_digits hmap
    · rw [if_neg hp] at h
      simp only [if_neg hp] at h
      exact ih (by simpa using h)

theorem rSpec_digits {cs : List Char} {g : List Char × List Char × List Char}
    (h : rSpec cs = some g) :
    (∀ x ∈ g.1, x.isDigit = true) ∧ (∀ x ∈ g.2.1, x.isDigit = true)
    ∧ (∀ x ∈ g.2.2, x.isDigit = true) :=
  tryFams_digits h

theorem pySpace_of_digit {x : Char} (h : x.isDigit = true) : pySpace x = false := by
  simp only [pySpace, decide_eq_false_iff_not]
  rintro (rfl | rfl | rfl | rfl | rfl | rfl) <;> simp at h

theorem colon_not_in_names {c : List Char} (h : ':' ∈ c) : c ∉ cpythonNames := by
  intro hmem
  simp only [cpythonNames, List.mem_cons, List.not_mem_nil, or_false] at hmem
  rcases hmem with rfl | rfl | rfl | rfl | rfl <;> simp at h

/-- `R_SPEC` on `<family>:<digits…>`: the engine walks the family alternation
to the family word, consumes the separator, and matches the digit tail. -/
theorem rSpec_fam_colon {f X : List Char} {g : List Char × List Char × List Char}
    (hf : f = ['c', 'p', 'y', 't', 'h', 'o', 'n'] ∨ f = ['p', 'y', 'p', 'y']
      ∨ f = ['c', 'o', 'n', 'd', 'a'])
    (hg : rsDigits X = some g)
    (hX : ∀ x, X.head? = some x → x.isDigit = true) :
    rSpec (f ++ ':' :: X) = some g := by
  have hok : rsAfterFam (':' :: X) = some g :=
    rsAfterFam_colon hg (fun x hx => pySpace_of_digit (hX x hx))
  rcases hf with rfl | rfl | rfl
  · have heq : (['c', 'p', 'y', 't', 'h', 'o', 'n'] ++ ':' :: X)
        = 'c' :: 'p' :: 'y' :: 't' :: 'h' :: 'o' :: 'n' :: ':' :: X := rfl
    have hstuck : rsAfterFam ('c' :: 'p' :: 'y' :: 't' :: 'h' :: 'o' :: 'n' :: ':' :: X) = none :=
      rsAfterFam_stuck (by decide) (by decide) (by decide) (by decide) (by decide)
    have hdw : ('c' :: 'p' :: 'y' :: 't' :: 'h' :: 'o' :: 'n' :: ':' :: X).dropWhile pySpace
        = 'c' :: 'p' :: 'y' :: 't' :: 'h' :: 'o' :: 'n' :: ':' :: X := by
      apply dropWhile_eq_self_of_head
      intro x hx
      have : 'c' = x := by simpa using hx
      exact this ▸ (by decide)
    rw [heq]
    unfold rSpec
    rw [hdw]
    simp [tryFams, famAlts, isPrefixCI, hstuck, hok]
  · have heq : (['p', 'y', 'p', 'y'] ++ ':' :: X) = 'p' :: 'y' :: 'p' :: 'y' :: ':' :: X := rfl
    have hstuck0 : rsAfterFam ('p' :: 'y' :: 'p' :: 'y' :: ':' :: X) = none :=
      rsAfterFam_stuck (by decide) (by decide) (by decide) (by decide) (by decide)
    have hstuck2 : rsAfterFam ('p' :: 'y' :: ':' :: X) = none :=
      rsAfterFam_stuck (by decide) (by decide) (by decide) (by decide) (by decide)
    have hstuck1 : rsAfterFam ('y' :: 'p' :: 'y' :: ':' :: X) = none :=
      rsAfterFam_stuck (by decide) (by decide) (by decide) (by decide) (by decide)
    have hdw : ('p' :: 'y' :: 'p' :: 'y' :: ':' :: X).dropWhile pySpace
        = 'p' :: 'y' :: 'p' :: 'y' :: ':' :: X := by
      apply dropWhile_eq_self_of_head
      intro x hx
      have : 'p' = x := by simpa using hx
      exact this ▸ (by decide)
    rw [heq]
    unfold rSpec
    rw [hdw]
    simp [tryFams, famAlts, isPrefixCI, hstuck0, hstuck1, hstuck2, hok]
  · have heq : (['c', 'o', 'n', 'd', 'a'] ++ ':' :: X)
        = 'c' :: 'o' :: 'n' :: 'd' :: 'a' :: ':' :: X := rfl
    have hstuck : rsAfterFam ('c' :: 'o' :: 'n' :: 'd' :: 'a' :: ':' :: X) = none :=
      rsAfterFam_stuck (by decide) (by decide) (by decide) (by decide) (by decide)
    have hdw : ('c' :: 'o' :: 'n' :: 'd' :: 'a' :: ':' :: X).dropWhile pySpace
        = 'c' :: 'o' :: 'n' :: 'd' :: 'a' :: ':' :: X := by
      apply dropWhile_eq_self_of_head
      intro x hx
      have : 'c' = x := by simpa using hx
      exact this ▸ (by decide)
    rw [heq]
    unfold rSpec
    rw [hdw]
    simp [tryFams, famAlts, isPrefixCI, hstuck, hok]

theorem isEmpty_false_of_ne {l : List α} (h : l ≠ []) : l.isEmpty = false := by
  cases l with
  | nil => exact absurd rfl h
  | cons _ _ => rfl

theorem mem_dotted_kinds {comps : List (List Char)} (hd : ∀ r ∈ comps, digitRun r) :
    ∀ x ∈ dotted comps, x = '.' ∨ x.isDigit = true := by
  intro x hx
  rcases mem_dotted hx with h | ⟨r, hr, hxr⟩
  · exact Or.inl h
  · exact Or.inr ((hd r hr).2 x hxr)

/-- Re-parsing a structured canonical string `<family>:<dotted digits>` is
stable: the spec parser returns the same canonical string. -/
theorem mkSpec_reparse (home cwd : List Char) {f : List Char}
    (hf : f = ['c', 'p', 'y', 't', 'h', 'o', 'n'] ∨ f = ['p', 'y', 'p', 'y']
      ∨ f = ['c', 'o', 'n', 'd', 'a'])
    (comps : List (List Char)) (hne : comps ≠ []) (hlen : comps.length ≤ 3)
    (hd : ∀ r ∈ comps, digitRun r)
    (hsing : ∀ r, comps = [r] → ∃ ch, r = [ch]) :
    (specFromTextCore home cwd (f ++ ':' :: dotted comps)).canonical
      = f ++ ':' :: dotted comps := by
  obtain ⟨r0, rest, hcomps⟩ : ∃ r0 rest, comps = r0 :: rest := by
    cases comps with
    | nil => exact absurd rfl hne
    | cons a b => exact ⟨a, b, rfl⟩
  obtain ⟨c0, t0, hr0⟩ : ∃ c0 t0, r0 = c0 :: t0 := by
    have := (hd r0 (by simp [hcomps])).1
    cases r0 with
    | nil => exact absurd rfl this
    | cons a b => exact ⟨a, b, rfl⟩
  have hfhead : ∃ fh ft, f = fh :: ft ∧ pySpace fh = false ∧ fh.isDigit = false
      ∧ ¬ fh = '~' ∧ ¬ fh = '.' := by
    rcases hf with rfl | rfl | rfl
    · exact ⟨'c', _, rfl, by decide, by decide, by decide, by decide⟩
    · exact ⟨'p', _, rfl, by decide, by decide, by decide, by decide⟩
    · exact ⟨'c', _, rfl, by decide, by decide, by decide, by decide⟩
  obtain ⟨fh, ft, hfc, hfs, hfd, hft, hfdot⟩ := hfhead
  have hchead : (f ++ ':' :: dotted comps).head? = some fh := by
    rw [hfc]
    rfl
  have hdotne : dotted comps ≠ [] := by
    intro hcon
    have hh := dotted_head rest hr0
    rw [← hcomps] at hh
    rw [hcon] at hh
    simp at hh
  have hlast : ∀ x, (f ++ ':' :: dotted comps).getLast? = some x → pySpace x = false := by
    intro x hx
    rcases dotted_getLast hne hd with ⟨ch, hch, hdig⟩
    rw [getLast?_append_right' (by simp), getLast?_cons_of_ne hdotne, hch] at hx
    cases hx
    exact pySpace_of_digit hdig
  have hstrip : pyStrip (f ++ ':' :: dotted comps) = f ++ ':' :: dotted comps :=
    pyStrip_of_ends hchead hfs hlast
  have hcolon : ':' ∈ f ++ ':' :: dotted comps := by
    simp
  have hnames : f ++ ':' :: dotted comps ∉ cpythonNames := colon_not_in_names hcolon
  have hpath : isPath (f ++ ':' :: dotted comps) = false := by
    have h1 : isPrefixCL ['~'] (f ++ ':' :: dotted comps) = false := by
      rw [hfc]
      simp only [isPrefixCL, List.cons_append, Bool.and_eq_false_iff]
      left
      simpa using fun h => hft h.symm
    have h2 : isPrefixCL ['.'] (f ++ ':' :: dotted comps) = false := by
      rw [hfc]
      simp only [isPrefixCL, List.cons_append, Bool.and_eq_false_iff]
      left
      simpa using fun h => hfdot h.symm
    have h3 : '/' ∉ f ++ ':' :: dotted comps := by
      intro hmem
      rcases List.mem_append.mp hmem with hmem | hmem
      · rcases hf with rfl | rfl | rfl <;> simp at hmem
      · rcases List.mem_cons.mp hmem with hcol | hmem
        · simp at hcol
        · rcases mem_dotted_kinds hd '/' hmem with hdot | hdig
          · simp at hdot
          · simp at hdig
    simp [isPath, h1, h2, h3]
  have hXhead : ∀ x, (dotted comps).head? = some x → x.isDigit = true := by
    intro x hx
    rw [hcomps] at hx
    rw [dotted_head rest hr0] at hx
    cases hx
    exact (hd r0 (by simp [hcomps])).2 c0 (by simp [hr0])
  have hguess : guessFamily (f ++ ':' :: dotted comps) = f :=
    guessFamily_canonical hf (mem_dotted_kinds hd)
  unfold specFromTextCore
  rw [hguess]
  unfold mkSpecCore
  rw [hstrip, if_neg hnames, if_neg (by simp [hpath])]
  -- dispatch on the shape of comps (1, 2 or 3 runs)
  rcases comps with _ | ⟨r1, _ | ⟨r2, _ | ⟨r3, _ | ⟨r4, t4⟩⟩⟩⟩
  · exact absurd rfl hne
  · -- one run; it must be a single digit
    obtain ⟨ch, hch⟩ := hsing r1 rfl
    subst hch
    have hro : rSpec (f ++ ':' :: dotted [[ch]]) = some ([ch], [], []) :=
      rSpec_fam_colon hf (rsDigits_one (hd [ch] (by simp))) hXhead
    rw [hro]
    have hvt : (mkVersionCore (List.intercalate ['.'] [[ch]]) 4).text = dotted [[ch]] := by
      rw [intercalate_eq_dotted]
      rw [mkVersionCore_dotted [ch] [] (by simpa using hd) (by simp)]
    simp only [List.filter, List.isEmpty_cons, Bool.not_false, Bool.not_true]
    simp [hvt]
  · -- two runs
    have hro : rSpec (f ++ ':' :: dotted [r1, r2]) = some (r1, r2, []) :=
      rSpec_fam_colon hf
        (rsDigits_two (hd r1 (by simp)) (hd r2 (by simp))) hXhead
    rw [hro]
    have h1 : r1.isEmpty = false := isEmpty_false_of_ne (hd r1 (by simp)).1
    have h2 : r2.isEmpty = false := isEmpty_false_of_ne (hd r2 (by simp)).1
    have hvt : (mkVersionCore (List.intercalate ['.'] [r1, r2]) 4).text = dotted [r1, r2] := by
      rw [intercalate_eq_dotted]
      rw [mkVersionCore_dotted r1 [r2] (by simpa using hd) (by simp)]
    simp only [List.filter, h1, h2, List.isEmpty_cons, Bool.not_false, Bool.not_true]
    simp [hvt, h1, h2]
  · -- three runs
    have hro : rSpec (f ++ ':' :: dotted [r1, r2, r3]) = some (r1, r2, r3) :=
      rSpec_fam_colon hf
        (rsDigits_three (hd r1 (by simp)) (hd r2 (by simp)) (hd r3 (by simp))) hXhead
    rw [hro]
    have h1 : r1.isEmpty = false := isEmpty_false_of_ne (hd r1 (by simp)).1
    have h2 : r2.isEmpty = false := isEmpty_false_of_ne (hd r2 (by simp)).1
    have h3 : r3.isEmpty = false := isEmpty_false_of_ne (hd r3 (by simp)).1
    have hvt : (mkVersionCore (List.intercalate ['.'] [r1, r2, r3]) 4).text
        = dotted [r1, r2, r3] := by
      rw [intercalate_eq_dotted]
      rw [mkVersionCore_dotted r1 [r2, r3] (by simpa using hd) (by simp)]
    simp only [List.filter, h1, h2, h3]
    simp [hvt, h1, h2, h3]
  · -- four or more runs: contradiction with the length bound
    simp at hlen

theorem isPrefixCL_pair {a b : Char} {l : List Char} :
    isPrefixCL [a, b] l = true ↔ ∃ t, l = a :: b :: t := by
  cases l with
  | nil => simp [isPrefixCL]
  | cons x t =>
    cases t with
    | nil =>
      simp [isPrefixCL]
    | cons y t2 =>
      simp only [isPrefixCL, Bool.and_eq_true, decide_eq_true_eq]
      constructor
      · rintro ⟨rfl, rfl, -⟩
        exact ⟨t2, rfl⟩
      · rintro ⟨t3, ht⟩
        cases ht
        simp [isPrefixCL]

theorem guessFamily_cases (t : List Char) :
    guessFamily t = ['c', 'p', 'y', 't', 'h', 'o', 'n'] ∨ guessFamily t = ['p', 'y', 'p', 'y']
      ∨ guessFamily t = ['c', 'o', 'n', 'd', 'a'] := by
  unfold guessFamily
  split_ifs <;> simp

theorem expandUser_ne_nil {home p : List Char} (hhome : home ≠ []) (hp : p ≠ []) :
    expandUser home p ≠ [] := by
  unfold expandUser
  by_cases h1 : p = ['~']
  · rw [if_pos h1]
    exact hhome
  · rw [if_neg h1]
    by_cases h2 : isPrefixCL ['~', '/'] p = true
    · rw [if_pos h2]
      intro hcon
      exact hhome (List.append_eq_nil.mp hcon).1
    · rw [if_neg h2]
      exact hp

theorem expandUser_last {home p : List Char}
    (hhome1 : pyStrip home = home) (hp1 : pyStrip p = p) :
    ∀ y, (expandUser home p).getLast? = some y → pySpace y = false := by
  intro y hy
  unfold expandUser at hy
  by_cases h1 : p = ['~']
  · rw [if_pos h1] at hy
    exact pyStrip_last hhome1 hy
  · rw [if_neg h1] at hy
    by_cases h2 : isPrefixCL ['~', '/'] p = true
    · rw [if_pos h2] at hy
      obtain ⟨t, rfl⟩ := isPrefixCL_pair.mp h2
      rw [show ('~' :: '/' :: t).drop 1 = '/' :: t from rfl] at hy
      rw [getLast?_append_right' (by simp)] at hy
      cases t with
      | nil =>
        have : '/' = y := by simpa using hy
        exact this ▸ (by decide)
      | cons a b =>
        rw [getLast?_cons_of_ne (by simp)] at hy
        apply pyStrip_last hp1
        rw [getLast?_cons_of_ne (by simp), getLast?_cons_of_ne (by simp)]
        exact hy
    · rw [if_neg h2] at hy
      exact pyStrip_last hp1 hy

theorem resolvedPath_abs {home cwd p : List Char}
    (hcwd : isPrefixCL ['/'] cwd = true) (hp : p ≠ []) :
    isPrefixCL ['/'] (resolvedPath home cwd p) = true := by
  unfold resolvedPath
  rw [if_neg (by simpa using hp)]
  by_cases hq : isPrefixCL ['/'] (expandUser home p) = true
  · rw [if_pos hq]
    exact hq
  · rw [if_neg hq]
    obtain ⟨t, rfl⟩ := isPrefixCL_single.mp hcwd
    exact isPrefixCL_single.mpr ⟨_, rfl⟩

theorem resolvedPath_last {home cwd p : List Char}
    (hhome1 : pyStrip home = home) (hhome2 : home ≠ [])
    (hp1 : pyStrip p = p) (hp2 : p ≠ []) :
    ∀ x, (resolvedPath home cwd p).getLast? = some x → pySpace x = false := by
  intro x hx
  unfold resolvedPath at hx
  rw [if_neg (by simpa using hp2)] at hx
  by_cases hq : isPrefixCL ['/'] (expandUser home p) = true
  · rw [if_pos hq] at hx
    exact expandUser_last hhome1 hp1 x hx
  · rw [if_neg hq] at hx
    rw [getLast?_append_right' (by simp)] at hx
    rw [getLast?_cons_of_ne (expandUser_ne_nil hhome2 hp2)] at hx
    exact expandUser_last hhome1 hp1 x hx

/-- Re-parsing an absolute path canonical is stable: the parser takes the path
branch again and the resolver keeps an absolute path unchanged. -/
theorem resolvedPath_reparse (home cwd c : List Char)
    (habs : isPrefixCL ['/'] c = true)
    (hlast : ∀ x, c.getLast? = some x → pySpace x = false) :
    (specFromTextCore home cwd c).canonical = c := by
  obtain ⟨t, rfl⟩ := isPrefixCL_single.mp habs
  have hstrip : pyStrip ('/' :: t) = '/' :: t := pyStrip_of_ends rfl (by decide) hlast
  have hmem : '/' :: t ∉ cpythonNames := by
    intro hm
    simp only [cpythonNames, List.mem_cons, List.not_mem_nil, or_false] at hm
    rcases hm with hm | hm | hm | hm | hm <;> simp at hm
  have hpath : isPath ('/' :: t) = true := by
    simp [isPath]
  have hE : expandUser home ('/' :: t) = '/' :: t := by
    unfold expandUser
    rw [if_neg (by simp), if_neg (by simp [isPrefixCL])]
  have hres : resolvedPath home cwd ('/' :: t) = '/' :: t := by
    unfold resolvedPath
    rw [if_neg (by simp), hE, if_pos (by simp [isPrefixCL])]
  unfold specFromTextCore mkSpecCore
  rw [hstrip, if_neg hmem, if_pos hpath]
  simp [hres]

theorem canonical_case_finish (home cwd text : List Char)
    (comps : List (List Char)) (hne : comps ≠ []) (hlen : comps.length ≤ 3)
    (hd : ∀ r ∈ comps, digitRun r)
    (hsing : ∀ r, comps = [r] → ∃ ch, r = [ch])
    (hcan : (specFromTextCore home cwd text).canonical
        = guessFamily text ++ ':' :: dotted comps) :
    (specFromTextCore home cwd (specFromTextCore home cwd text).canonical).canonical
      = (specFromTextCore home cwd text).canonical := by
  rw [hcan]
  exact mkSpec_reparse home cwd (guessFamily_cases text) comps hne hlen hd hsing

theorem ne_nil_of_isEmpty_false {α : Type} {l : List α} (h : l.isEmpty = false) : l ≠ [] := by
  cases l with
  | nil => simp at h
  | cons _ _ => simp

/-- Structured branch, a single digit group matched: the group splits into its
single digits, and when it holds at most 3 of them the canonical re-parses. -/
theorem specCanon_single (home cwd text : List Char)
    (htext : pyStrip text = text) (hmem : text ∉ cpythonNames)
    (hpath : ¬ isPath text = true)
    {d1 d2 d3 d : List Char} (hro : rSpec text = some (d1, d2, d3))
    (hfil : [d1, d2, d3].filter (fun s => !s.isEmpty) = [d])
    (hdd : ∀ x ∈ d, x.isDigit = true) (hd0 : d ≠ [])
    (hsup : isPrefixCL ['?'] (specFromTextCore home cwd text).canonical = false) :
    (specFromTextCore home cwd (specFromTextCore home cwd text).canonical).canonical
      = (specFromTextCore home cwd text).canonical := by
  obtain ⟨c0, t0, hc0⟩ : ∃ c t, d = c :: t := by
    cases d with
    | nil => exact absurd rfl hd0
    | cons a b => exact ⟨a, b, rfl⟩
  have hdm : ∀ r ∈ d.map (fun ch => ([ch] : List Char)), digitRun r := by
    intro r hr
    rcases List.mem_map.mp hr with ⟨ch, hch, rfl⟩
    refine ⟨by simp, ?_⟩
    intro c hc
    rw [List.mem_singleton] at hc
    subst hc
    exact hdd _ hch
  have hmap : d.map (fun ch => ([ch] : List Char)) = [c0] :: t0.map (fun ch => [ch]) := by
    rw [hc0]
    rfl
  by_cases hL : d.length ≤ 3
  · have hL' : t0.length + 1 ≤ 3 := by
      rw [hc0] at hL
      simpa using hL
    have hvt : (mkVersionCore (List.intercalate ['.']
        (d.map (fun ch => ([ch] : List Char)))) 4).text
        = dotted (d.map (fun ch => ([ch] : List Char))) := by
      rw [intercalate_eq_dotted, hmap]
      rw [mkVersionCore_dotted [c0] (t0.map (fun ch => [ch]))
        (by rw [← hmap]; exact hdm)
        (by simp only [List.length_cons, List.length_map]; omega)]
    have hnot : ¬(d = [] ∨ 3 < d.length) := by
      rintro (h | h)
      · exact hd0 h
      · omega
    have hcan : (specFromTextCore home cwd text).canonical
        = guessFamily text ++ ':' :: dotted (d.map (fun ch => ([ch] : List Char))) := by
      unfold specFromTextCore mkSpecCore
      rw [htext, if_neg hmem, if_neg hpath, hro]
      simp only [hfil]
      simp [hvt]
      rw [if_neg hnot]
    refine canonical_case_finish home cwd text (d.map (fun ch => [ch]))
      ?_ ?_ hdm ?_ hcan
    · rw [hc0]
      simp
    · simpa [List.length_map] using hL
    · intro r hr
      rw [hmap] at hr
      injection hr with h1 h2
      exact ⟨c0, h1.symm⟩
  · have hcan : (specFromTextCore home cwd text).canonical = '?' :: text := by
      unfold specFromTextCore mkSpecCore
      rw [htext, if_neg hmem, if_neg hpath, hro]
      simp only [hfil]
      simp
      rw [if_pos (Or.inr (by omega))]
    rw [hcan] at hsup
    simp [isPrefixCL] at hsup

/-- Structured branch, two digit groups matched: the canonical re-parses. -/
theorem specCanon_pair (home cwd text : List Char)
    (htext : pyStrip text = text) (hmem : text ∉ cpythonNames)
    (hpath : ¬ isPath text = true)
    {d1 d2 d3 da db : List Char} (hro : rSpec text = some (d1, d2, d3))
    (hfil : [d1, d2, d3].filter (fun s => !s.isEmpty) = [da, db])
    (hda : digitRun da) (hdb : digitRun db) :
    (specFromTextCore home cwd (specFromTextCore home cwd text).canonical).canonical
      = (specFromTextCore home cwd text).canonical := by
  have hvt : (mkVersionCore (List.intercalate ['.'] [da, db]) 4).text = dotted [da, db] := by
    rw [intercalate_eq_dotted]
    rw [mkVersionCore_dotted da [db] (by simp [hda, hdb]) (by simp)]
  have hcan : (specFromTextCore home cwd text).canonical
      = guessFamily text ++ ':' :: dotted [da, db] := by
    unfold specFromTextCore mkSpecCore
    rw [htext, if_neg hmem, if_neg hpath, hro]
    simp only [hfil]
    simp [hvt]
  refine canonical_case_finish home cwd text [da, db] (by simp) (by simp) ?_ ?_ hcan
  · intro r hr
    rcases List.mem_cons.mp hr with rfl | hr
    · exact hda
    · rcases List.mem_cons.mp hr with rfl | hr
      · exact hdb
      · simp at hr
  · intro r hr
    simp at hr

/-- Structured branch, all three digit groups matched: the canonical
re-parses. -/
theorem specCanon_triple (home cwd text : List Char)
    (htext : pyStrip text = text) (hmem : text ∉ cpythonNames)
    (hpath : ¬ isPath text = true)
    {d1 d2 d3 da db dc : List Char} (hro : rSpec text = some (d1, d2, d3))
    (hfil : [d1, d2, d3].filter (fun s => !s.isEmpty) = [da, db, dc])
    (hda : digitRun da) (hdb : digitRun db) (hdc : digitRun dc) :
    (specFromTextCore home cwd (specFromTextCore home cwd text).canonical).canonical
      = (specFromTextCore home cwd text).canonical := by
  have hvt : (mkVersionCore (List.intercalate ['.'] [da, db, dc]) 4).text
      = dotted [da, db, dc] := by
    rw [intercalate_eq_dotted]
    rw [mkVersionCore_dotted da [db, dc] (by simp [hda, hdb, hdc]) (by simp)]
  have hcan : (specFromTextCore home cwd text).canonical
      = guessFamily text ++ ':' :: dotted [da, db, dc] := by
    unfold specFromTextCore mkSpecCore
    rw [htext, if_neg hmem, if_neg hpath, hro]
    simp only [hfil]
    simp [hvt]
  refine canonical_case_finish home cwd text [da, db, dc] (by simp) (by simp) ?_ ?_ hcan
  · intro r hr
    rcases List.mem_cons.mp hr with rfl | hr
    · exact hda
    · rcases List.mem_cons.mp hr with rfl | hr
      · exact hdb
      · rcases List.mem_cons.mp hr with rfl | hr
        · exact hdc
        · simp at hr
  · intro r hr
    simp at hr

/-- C4: spec canonicalization is idempotent for every supported form (bare
family alias, filesystem-path form and structured `family:version` form, the
forms whose canonical does not carry the `?` sentinel): re-parsing the
canonical string yields the same canonical string.  The home and working
directories feeding the path resolver are absolute, whitespace-trimmed
strings, and the spec text is given trimmed. -/
theorem spec_canonicalization_idempotent (home cwd text : List Char)
    (hhome1 : pyStrip home = home) (hhome2 : home ≠ [])
    (hcwd : isPrefixCL ['/'] cwd = true)
    (htext : pyStrip text = text)
    (hsup : isPrefixCL ['?'] (specFromTextCore home cwd text).canonical = false) :
    (specFromTextCore home cwd (specFromTextCore home cwd text).canonical).canonical
      = (specFromTextCore home cwd text).canonical := by
  by_cases hmem : text ∈ cpythonNames
  · have hcan : (specFromTextCore home cwd text).canonical = guessFamily text := by
      unfold specFromTextCore mkSpecCore
      rw [htext, if_pos hmem]
    rw [hcan]
    simp only [cpythonNames, List.mem_cons, List.not_mem_nil, or_false] at hmem
    rcases hmem with rfl | rfl | rfl | rfl | rfl <;> rfl
  · by_cases hpath : isPath text = true
    · have hne : text ≠ [] := by
        intro h
        rw [h] at hpath
        simp [isPath, isPrefixCL] at hpath
      have hcan : (specFromTextCore home cwd text).canonical = resolvedPath home cwd text := by
        unfold specFromTextCore mkSpecCore
        rw [htext, if_neg hmem, if_pos hpath]
      rw [hcan]
      exact resolvedPath_reparse home cwd _ (resolvedPath_abs hcwd hne)
        (resolvedPath_last hhome1 hhome2 htext hne)
    · cases hro : rSpec text with
      | none =>
        have hcan : (specFromTextCore home cwd text).canonical = '?' :: text := by
          unfold specFromTextCore mkSpecCore
          rw [htext, if_neg hmem, if_neg hpath, hro]
        rw [hcan] at hsup
        simp [isPrefixCL] at hsup
      | some g =>
        obtain ⟨d1, d2, d3⟩ := g
        have hdig := rSpec_digits hro
        cases e1 : d1.isEmpty <;> cases e2 : d2.isEmpty <;> cases e3 : d3.isEmpty
        -- all three digit groups present
        · exact specCanon_triple home cwd text htext hmem hpath hro
            (by simp [List.filter, e1, e2, e3])
            ⟨ne_nil_of_isEmpty_false e1, hdig.1⟩
            ⟨ne_nil_of_isEmpty_false e2, hdig.2.1⟩
            ⟨ne_nil_of_isEmpty_false e3, hdig.2.2⟩
        -- major and minor
        · exact specCanon_pair home cwd text htext hmem hpath hro
            (by simp [List.filter, e1, e2, e3])
            ⟨ne_nil_of_isEmpty_false e1, hdig.1⟩
            ⟨ne_nil_of_isEmpty_false e2, hdig.2.1⟩
        -- major and micro
        · exact specCanon_pair home cwd text htext hmem hpath hro
            (by simp [List.filter, e1, e2, e3])
            ⟨ne_nil_of_isEmpty_false e1, hdig.1⟩
            ⟨ne_nil_of_isEmpty_false e3, hdig.2.2⟩
        -- major only: the run is split into single digits
        · exact specCanon_single home cwd text htext hmem hpath hro
            (by simp [List.filter, e1, e2, e3]) hdig.1
            (ne_nil_of_isEmpty_false e1) hsup
        -- minor and micro
        · exact specCanon_pair home cwd text htext hmem hpath hro
            (by simp [List.filter, e1, e2, e3])
            ⟨ne_nil_of_isEmpty_false e2, hdig.2.1⟩
            ⟨ne_nil_of_isEmpty_false e3, hdig.2.2⟩
        -- minor only
        · exact specCanon_single home cwd text htext hmem hpath hro
            (by simp [List.filter, e1, e2, e3]) hdig.2.1
            (ne_nil_of_isEmpty_false e2) hsup
        -- micro only
        · exact specCanon_single home cwd text htext hmem hpath hro
            (by simp [List.filter, e1, e2, e3]) hdig.2.2
            (ne_nil_of_isEmpty_false e3) hsup
        -- no digit group at all: sentinel, excluded by the hypothesis
        · have hcan : (specFromTextCore home cwd text).canonical = '?' :: text := by
            unfold specFromTextCore mkSpecCore
            rw [htext, if_neg hmem, if_neg hpath, hro]
            simp [List.filter, e1, e2, e3]
          rw [hcan] at hsup
          simp [isPrefixCL] at hsup

/-- C4 witness: the structured text `3.9` canonicalizes to `cpython:3.9`, and
re-parsing that canonical yields the same canonical. -/
theorem spec_canonicalization_idempotent_witness :
    (specFromTextCore "/h".data "/c".data
        (specFromTextCore "/h".data "/c".data "3.9".data).canonical).canonical
      = (specFromTextCore "/h".data "/c".data "3.9".data).canonical :=
  spec_canonicalization_idempotent "/h".data "/c".data "3.9".data
    (by decide) (by decide) (by decide) (by decide) (by decide)

/-- C10 witness: `1.0.dev1` vs `1.0.dev2`. -/
theorem dev_numeral_discarded_witness :
    veq (mkVersionCore (dotted [['1'], ['0']] ++ '.' :: 'd' :: 'e' :: 'v' :: ['1']) 4)
        (mkVersionCore (dotted [['1'], ['0']] ++ '.' :: 'd' :: 'e' :: 'v' :: ['2']) 4) = true
    ∧ (mkVersionCore (dotted [['1'], ['0']] ++ '.' :: 'd' :: 'e' :: 'v' :: ['1']) 4).prerelease
        = some (['d', 'e', 'v'], 0) := by
  have h := dev_numeral_discarded [['1'], ['0']] ['1'] ['2'] (by decide) (by decide)
    (by decide) (by decide) (by decide)
  exact ⟨h.1, h.2.1⟩

end Runez
